import Mathlib

/-!
Verification of the voice command parser (`parseVoiceCommand` and its helpers)
of the grocery-list application.  The TypeScript module is embedded shallowly:

* JS strings are Lean `String`s (lists of unicode characters); the regular
  expressions of the source are embedded as bespoke backtracking matchers
  whose alternation / greedy / lazy behaviour mirrors the JS regex engine on
  the exact patterns appearing in the source;
* JS numbers are embedded as `ℚ` (the parser only ever produces integers and
  the fractions 0.5 / 0.25); `none` stands for JS `NaN` where it can arise;
* case conversion (`toLowerCase` / `toUpperCase`) is modelled on the ASCII
  range, which is exact for every comparison the source performs (all its
  literals are ASCII);
* fallible steps (a property access that would throw on `undefined`) are
  modelled in `Option`: a `none` result of `parseItem` / `parseVoiceCommand`
  stands for a thrown `TypeError`.
-/

set_option maxRecDepth 8000

/-! ## Character classes (JS `\s`, `.`, `\d`, ASCII case conversion) -/

/-- JS whitespace class `\s` (also the set trimmed by `String.prototype.trim`):
tab, LF, VT, FF, CR, space, NBSP, and the unicode space characters. -/
def isWsC (c : Char) : Bool :=
  decide (c.toNat = 9 ∨ c.toNat = 10 ∨ c.toNat = 11 ∨ c.toNat = 12 ∨
    c.toNat = 13 ∨ c.toNat = 32 ∨ c.toNat = 160 ∨ c.toNat = 5760 ∨
    (8192 ≤ c.toNat ∧ c.toNat ≤ 8202) ∨ c.toNat = 8232 ∨ c.toNat = 8233 ∨
    c.toNat = 8239 ∨ c.toNat = 8287 ∨ c.toNat = 12288 ∨ c.toNat = 65279)

/-- JS line terminators: LF, CR, U+2028, U+2029 (the characters `.` does not match). -/
def isLineTermC (c : Char) : Bool :=
  decide (c.toNat = 10 ∨ c.toNat = 13 ∨ c.toNat = 8232 ∨ c.toNat = 8233)

/-- The class matched by `.` in a JS regex without the `s` flag. -/
def isDotC (c : Char) : Bool := !(isLineTermC c)

/-- JS `\d`: ASCII digits. -/
def isDigitC (c : Char) : Bool := decide (48 ≤ c.toNat ∧ c.toNat ≤ 57)

/-- ASCII lower-casing (exact model of `toLowerCase` on the ASCII range). -/
def lowerC (c : Char) : Char :=
  if 65 ≤ c.toNat ∧ c.toNat ≤ 90 then Char.ofNat (c.toNat + 32) else c

/-- ASCII upper-casing (exact model of `toUpperCase` on the ASCII range). -/
def upperC (c : Char) : Char :=
  if 97 ≤ c.toNat ∧ c.toNat ≤ 122 then Char.ofNat (c.toNat - 32) else c

/-- Case-insensitive character comparison, as the `i` regex flag performs it
on ASCII pattern characters. -/
def eqIC (a b : Char) : Bool := lowerC a == lowerC b

/-! ## String helpers (trim, toLowerCase, startsWith, includes, split) -/

/-- `String.prototype.trim`, on the character list. -/
def trimL (l : List Char) : List Char :=
  ((l.dropWhile isWsC).reverse.dropWhile isWsC).reverse

/-- `String.prototype.trim`. -/
def jsTrim (s : String) : String := String.mk (trimL s.data)

/-- `String.prototype.toLowerCase` (ASCII model). -/
def jsLower (s : String) : String := String.mk (s.data.map lowerC)

/-- `beginsWith w s`: does `s` start with `w` (case-sensitive)? -/
def beginsWith : List Char → List Char → Bool
  | [], _ => true
  | _ :: _, [] => false
  | w :: ws, c :: cs => (w == c) && beginsWith ws cs

/-- `beginsWithI w s`: does `s` start with `w` up to ASCII case? -/
def beginsWithI : List Char → List Char → Bool
  | [], _ => true
  | _ :: _, [] => false
  | w :: ws, c :: cs => eqIC w c && beginsWithI ws cs

/-- Pointwise case-insensitive equality of two character lists (same length). -/
def eqIList : List Char → List Char → Bool
  | [], [] => true
  | w :: ws, c :: cs => eqIC w c && eqIList ws cs
  | _, _ => false

/-- `String.prototype.includes`, on character lists (`containsSub w s`:
does `s` contain `w` as a contiguous substring?). -/
def containsSub (w : List Char) : List Char → Bool
  | [] => beginsWith w []
  | c :: s' => beginsWith w (c :: s') || containsSub w s'

/-- `String.prototype.startsWith`. -/
def jsStartsWith (s w : String) : Bool := beginsWith w.data s.data

/-- `String.prototype.includes`. -/
def jsIncludes (s w : String) : Bool := containsSub w.data s.data

/-- `String.prototype.split(sep)` for a single-character separator, on lists
(splitting on every occurrence, keeping empty pieces, like JS `split`). -/
def splitAux (sep : Char) : List Char → List Char → List (List Char)
  | [], acc => [acc.reverse]
  | c :: cs, acc =>
      if c == sep then acc.reverse :: splitAux sep cs []
      else splitAux sep cs (c :: acc)

/-- `String.prototype.split(sep)` for a single-character separator. -/
def splitOnCharL (sep : Char) (l : List Char) : List (List Char) :=
  splitAux sep l []

/-! ## Regex matcher combinators

Each regex of the source is embedded as a matcher built from the combinators
below, written in continuation-passing style so that the backtracking order
is exactly the JS engine's (greedy `+` tries the longest run first and gives
characters back on failure of the continuation; lazy `+?` tries the shortest
extension first; alternations are tried left to right). -/

/-- Backtracking engine of a greedy `c+`: `revRun` is the (reversed) part of
the maximal run currently consumed; on failure of the continuation `k` the
last character of the run is given back to the remainder.  The run may not
shrink below one character (`+` requires at least one). -/
def btRun (k : List Char → List Char → Option α) :
    List Char → List Char → Option α
  | [], _ => none
  | c :: rr, rest =>
      match k (c :: rr).reverse rest with
      | some a => some a
      | none => btRun k rr (c :: rest)

/-- Greedy `⟨class⟩+` followed by the continuation `k run rest`. -/
def plusThen (p : Char → Bool) (k : List Char → List Char → Option α)
    (s : List Char) : Option α :=
  btRun k (s.takeWhile p).reverse (s.dropWhile p)

/-- A literal word of the pattern (case-insensitive, the `i` flag), then `k`. -/
def litIThen (w : List Char) (k : List Char → Option α) (s : List Char) :
    Option α :=
  if beginsWithI w s then k (s.drop w.length) else none

/-- An alternation `(w₁|w₂|…)` of literal words, alternatives tried in the
given order with continuation backtracking; the capture passed to `k` is the
consumed slice of the input (as JS capture groups record input text). -/
def altLitsThen (ws : List (List Char))
    (k : List Char → List Char → Option α) (s : List Char) : Option α :=
  ws.findSome? (fun w =>
    if beginsWithI w s then k (s.take w.length) (s.drop w.length) else none)

/-- Engine of a lazy `(.+?)`: grow the capture one character at a time,
trying the continuation after each extension; a character `.` cannot match
stops the search. -/
def lazyDotGo (k : List Char → List Char → Option α) :
    List Char → List Char → Option α
  | _, [] => none
  | accRev, c :: rest =>
      if isDotC c then
        match k (c :: accRev).reverse rest with
        | some a => some a
        | none => lazyDotGo k (c :: accRev) rest
      else none

/-- Lazy `(.+?)` followed by the continuation `k capture rest`. -/
def lazyDotThen (k : List Char → List Char → Option α) (s : List Char) :
    Option α :=
  lazyDotGo k [] s

/-- A greedy optional group `(?:…)?`: try the group's body (with `k` as its
continuation) first, skip the group on failure. -/
def optThen (m : (List Char → Option α) → List Char → Option α)
    (k : List Char → Option α) (s : List Char) : Option α :=
  match m k s with
  | some a => some a
  | none => k s

/-- A final `(.+)$`: matches exactly when the whole remainder is non-empty
and free of line terminators (a greedy `.+` must reach the strict
end-of-string anchor and cannot cross a line terminator). -/
def dotAllEnd (s : List Char) : Option (List Char) :=
  if s ≠ [] && s.all isDotC then some s else none

/-- Unanchored regex search (`String.prototype.match` with a non-global
regex): try a match starting at each position, left to right.  `pre` holds
the characters before the current start position; for the end-anchored
patterns of the source a successful match consumes the whole remaining
suffix, so the result is `(text before the match, match result)`. -/
def searchPos (m : List Char → Option α) :
    List Char → List Char → Option (List Char × α)
  | pre, [] =>
      (match m [] with
      | some a => some (pre, a)
      | none => none)
  | pre, c :: s' =>
      (match m (c :: s') with
      | some a => some (pre, a)
      | none => searchPos m (pre ++ [c]) s')

/-! ## Data model (`ParsedCommand`, `ParsedItem`) -/

/-- The four actions of `ParsedCommand['action']`. -/
inductive VAction
  | add
  | complete
  | uncomplete
  | remove
deriving DecidableEq, Repr

/-- `ParsedItem` of the source.  `quantity`: `none` models the field being
absent (or `NaN`, which is unreachable here and equally falsy). -/
structure ParsedItem where
  name : String
  quantity : Option ℚ
  unit : Option String
  originalText : String
deriving DecidableEq, Repr

/-- `ParsedCommand` of the source. -/
structure ParsedCommand where
  action : VAction
  items : List ParsedItem
  targetList : Option String
  raw : String
deriving DecidableEq, Repr

/-! ## Fixed tables of the source -/

/-- `ACTION_VERBS`, in declaration order (JS `Object.entries` preserves it). -/
def ACTION_VERBS : List (VAction × List String) :=
  [(.add, ["add", "adding", "buy", "get", "need", "pick up", "grab"]),
   (.complete, ["check off", "mark", "complete", "done with", "got", "bought"]),
   (.uncomplete, ["uncheck", "unmark", "undo"]),
   (.remove, ["remove", "delete", "clear", "take off"])]

/-- The unit alternation of quantity patterns 4 and 5, in source order. -/
def unitWords : List String :=
  ["pound", "pounds", "lb", "lbs", "ounce", "ounces", "oz", "can", "cans",
   "box", "boxes", "bag", "bags", "bottle", "bottles", "gallon", "gallons",
   "quart", "quarts", "cup", "cups", "dozen"]

/-- The text-number alternation of quantity pattern 2 (`one`..`twelve`). -/
def numWords12 : List String :=
  ["one", "two", "three", "four", "five", "six", "seven", "eight", "nine",
   "ten", "eleven", "twelve"]

/-- The text-number alternation of quantity pattern 5 (`one`..`ten`). -/
def numWords10 : List String :=
  ["one", "two", "three", "four", "five", "six", "seven", "eight", "nine",
   "ten"]

/-- The fraction alternation of quantity pattern 3. -/
def fracWords : List String := ["half", "quarter"]

/-- `TEXT_TO_NUMBER`, as an ordered association list (0.5 and 0.25 are the
rationals 1/2 and 1/4, written in lowest terms so that they normalize
structurally). -/
def TEXT_TO_NUMBER : List (String × ℚ) :=
  [("one", 1), ("two", 2), ("three", 3), ("four", 4), ("five", 5),
   ("six", 6), ("seven", 7), ("eight", 8), ("nine", 9), ("ten", 10),
   ("eleven", 11), ("twelve", 12),
   ("half", ⟨1, 2, by decide, by decide⟩),
   ("quarter", ⟨1, 4, by decide, by decide⟩)]

/-- `TEXT_TO_NUMBER[s]`: `none` models JS `undefined`. -/
def textToNumber (s : String) : Option ℚ :=
  (TEXT_TO_NUMBER.find? (fun p => p.1 == s)).map (·.2)

/-- Value of a list of ASCII digits, most significant first. -/
def digitsVal (l : List Char) : ℕ :=
  l.foldl (fun a c => 10 * a + (c.toNat - 48)) 0

/-- The optional sign of `parseInt`: whether it is negative, and the text
after the sign. -/
def signSplit : List Char → Bool × List Char
  | '-' :: rest => (true, rest)
  | '+' :: rest => (false, rest)
  | t => (false, t)

/-- JS `parseInt(s)` (radix 10): skip leading whitespace, optional sign,
value of the following digit run with the sign applied; `none` models `NaN`
(no digits). -/
def jsParseInt (s : String) : Option ℚ :=
  let t := s.data.dropWhile isWsC
  let ds := (signSplit t).2.takeWhile isDigitC
  if ds = [] then none
  else if (signSplit t).1 then some (-(digitsVal ds : ℚ))
  else some ((digitsVal ds : ℚ))

/-! ## The five quantity patterns (`QUANTITY_PATTERNS`)

Each matcher returns the JS match array (index 0 the whole match, then the
capture groups; `none` entries model `undefined`).  All five patterns are
anchored `^…$`, so group 0 is the whole input on success. -/

/-- Pattern 1: `/^(\d+)\s+(.+)$/`. -/
def qpat1 (s : List Char) : Option (List (Option (List Char))) :=
  plusThen isDigitC (fun d r1 =>
    plusThen isWsC (fun _ r2 =>
      (dotAllEnd r2).map (fun cap => [some s, some d, some cap])) r1) s

/-- Pattern 2: `/^(one|two|…|twelve)\s+(.+)$/i`. -/
def qpat2 (s : List Char) : Option (List (Option (List Char))) :=
  altLitsThen (numWords12.map String.data) (fun w r1 =>
    plusThen isWsC (fun _ r2 =>
      (dotAllEnd r2).map (fun cap => [some s, some w, some cap])) r1) s

/-- Pattern 3: `/^(half|quarter)\s+(.+)$/i`. -/
def qpat3 (s : List Char) : Option (List (Option (List Char))) :=
  altLitsThen (fracWords.map String.data) (fun w r1 =>
    plusThen isWsC (fun _ r2 =>
      (dotAllEnd r2).map (fun cap => [some s, some w, some cap])) r1) s

/-- The optional `(?:of\s+)?` of patterns 4 and 5. -/
def optOfThen (k : List Char → Option α) (s : List Char) : Option α :=
  optThen (fun k' r =>
    litIThen "of".data (fun r' =>
      plusThen isWsC (fun _ r'' => k' r'') r') r) k s

/-- Pattern 4: `/^(\d+)\s+(pound|pounds|…|dozen)\s+(?:of\s+)?(.+)$/i`. -/
def qpat4 (s : List Char) : Option (List (Option (List Char))) :=
  plusThen isDigitC (fun d r1 =>
    plusThen isWsC (fun _ r2 =>
      altLitsThen (unitWords.map String.data) (fun u r3 =>
        plusThen isWsC (fun _ r4 =>
          optOfThen (fun r5 =>
            (dotAllEnd r5).map (fun cap => [some s, some d, some u, some cap]))
            r4) r3) r2) r1) s

/-- Pattern 5: `/^(one|…|ten)\s+(pound|pounds|…|dozen)\s+(?:of\s+)?(.+)$/i`. -/
def qpat5 (s : List Char) : Option (List (Option (List Char))) :=
  altLitsThen (numWords10.map String.data) (fun w r1 =>
    plusThen isWsC (fun _ r2 =>
      altLitsThen (unitWords.map String.data) (fun u r3 =>
        plusThen isWsC (fun _ r4 =>
          optOfThen (fun r5 =>
            (dotAllEnd r5).map (fun cap => [some s, some w, some u, some cap]))
            r4) r3) r2) r1) s

/-- `QUANTITY_PATTERNS`, in the source's declaration (and application) order. -/
def QUANTITY_PATTERNS : List (List Char → Option (List (Option (List Char)))) :=
  [qpat1, qpat2, qpat3, qpat4, qpat5]

/-! ## The five target-list patterns of `extractTargetList`

All five end with `list$`, so a successful match consumes the whole suffix
from its start position; each matcher returns capture group 1 (which is
mandatory in all five patterns). -/

/-- The common tail `(.+?)\s+list$` (lazy capture). -/
def lazyListTail (s : List Char) : Option (List Char) :=
  lazyDotThen (fun cap r =>
    plusThen isWsC (fun _ r' =>
      litIThen "list".data (fun r'' =>
        if r'' = [] then some cap else none) r') r) s

/-- Pattern 1: `/\s+to\s+my\s+(shopping|grocery)\s+list$/i` (at one position). -/
def lpat1 (s : List Char) : Option (List Char) :=
  plusThen isWsC (fun _ r1 =>
    litIThen "to".data (fun r2 =>
      plusThen isWsC (fun _ r3 =>
        litIThen "my".data (fun r4 =>
          plusThen isWsC (fun _ r5 =>
            altLitsThen ["shopping".data, "grocery".data] (fun cap r6 =>
              plusThen isWsC (fun _ r7 =>
                litIThen "list".data (fun r8 =>
                  if r8 = [] then some cap else none) r7) r6) r5) r4) r3) r2)
    r1) s

/-- Pattern 2: `/\s+to\s+the\s+(shopping|grocery)\s+list$/i` (at one position). -/
def lpat2 (s : List Char) : Option (List Char) :=
  plusThen isWsC (fun _ r1 =>
    litIThen "to".data (fun r2 =>
      plusThen isWsC (fun _ r3 =>
        litIThen "the".data (fun r4 =>
          plusThen isWsC (fun _ r5 =>
            altLitsThen ["shopping".data, "grocery".data] (fun cap r6 =>
              plusThen isWsC (fun _ r7 =>
                litIThen "list".data (fun r8 =>
                  if r8 = [] then some cap else none) r7) r6) r5) r4) r3) r2)
    r1) s

/-- Pattern 3: `/\s+to\s+my\s+(.+?)\s+list$/i` (at one position). -/
def lpat3 (s : List Char) : Option (List Char) :=
  plusThen isWsC (fun _ r1 =>
    litIThen "to".data (fun r2 =>
      plusThen isWsC (fun _ r3 =>
        litIThen "my".data (fun r4 =>
          plusThen isWsC (fun _ r5 => lazyListTail r5) r4) r3) r2) r1) s

/-- Pattern 4: `/\s+to\s+(?:the\s+)?(.+?)\s+list$/i` (at one position). -/
def lpat4 (s : List Char) : Option (List Char) :=
  plusThen isWsC (fun _ r1 =>
    litIThen "to".data (fun r2 =>
      plusThen isWsC (fun _ r3 =>
        optThen (fun k r =>
          litIThen "the".data (fun r' =>
            plusThen isWsC (fun _ r'' => k r'') r') r)
          (fun r4 => lazyListTail r4) r3) r2) r1) s

/-- Pattern 5: `/\s+on\s+(?:my|the)\s+(.+?)\s+list$/i` (at one position). -/
def lpat5 (s : List Char) : Option (List Char) :=
  plusThen isWsC (fun _ r1 =>
    litIThen "on".data (fun r2 =>
      plusThen isWsC (fun _ r3 =>
        altLitsThen ["my".data, "the".data] (fun _ r4 =>
          plusThen isWsC (fun _ r5 => lazyListTail r5) r4) r3) r2) r1) s

/-- The pattern list of `extractTargetList`, in source order. -/
def LIST_PATTERNS : List (List Char → Option (List Char)) :=
  [lpat1, lpat2, lpat3, lpat4, lpat5]

/-! ## The parser pipeline -/

/-- The match test of `detectAction`:
`text.startsWith(verb) || text.includes(` ${verb} `)`. -/
def verbMatches (text verb : String) : Bool :=
  jsStartsWith text verb || jsIncludes text (" " ++ verb ++ " ")

/-- `detectAction`: first category (in table order) containing a verb that
prefixes the text or occurs surrounded by spaces; `add` if none does. -/
def detectAction (text : String) : VAction :=
  (ACTION_VERBS.findSome? (fun p =>
    p.2.findSome? (fun verb =>
      if verbMatches text verb then some p.1 else none))).getD .add

/-- `extractTargetList`: try the five end-anchored patterns in order (each
with an unanchored search); on a match, `text.replace(pattern, '')` removes
the matched suffix, leaving the prefix before the match; a captured
`shopping`/`grocery` maps to `none` (use the default list). -/
def extractTargetList (text : String) : String × Option String :=
  match LIST_PATTERNS.findSome? (fun m => searchPos m [] text.data) with
  | some (pre, cap) =>
      let listName := jsLower (jsTrim (String.mk cap))
      if listName == "shopping" || listName == "grocery" then
        (jsTrim (String.mk pre), none)
      else
        (jsTrim (String.mk pre), some listName)
  | none => (text, none)

/-- `removeActionVerb`: strip the first verb of the detected action's list
that literally prefixes the text. -/
def removeActionVerb (text : String) (action : VAction) : String :=
  let verbs := ((ACTION_VERBS.find? (fun p => p.1 == action)).map (·.2)).getD []
  match verbs.find? (fun verb => jsStartsWith text verb) with
  | some verb => jsTrim (String.mk (text.data.drop verb.data.length))
  | none => text

/-- The global replace `text.replace(/\s+and\s+/gi, ', ')` at one position:
match `\s+and\s+` at the head of `s`, returning the remainder after the
match.  The leading `\s+` needs no backtracking (a whitespace character can
never start `and`), and the trailing greedy `\s+` is final, so both are
maximal-munch. -/
def matchAndAt (s : List Char) : Option (List Char) :=
  let w1 := s.takeWhile isWsC
  if w1 = [] then none
  else
    let r1 := s.dropWhile isWsC
    if beginsWithI "and".data r1 then
      let r2 := r1.drop 3
      let w2 := r2.takeWhile isWsC
      if w2 = [] then none else some (r2.dropWhile isWsC)
    else none

theorem dropWhile_length_le (p : Char → Bool) (l : List Char) :
    (l.dropWhile p).length ≤ l.length := by
  induction l with
  | nil => simp [List.dropWhile]
  | cons c cs ih =>
      by_cases hc : p c
      · simp only [List.dropWhile, hc]
        exact Nat.le_succ_of_le ih
      · simp [List.dropWhile, hc]

theorem dropWhile_length_lt (p : Char → Bool) (l : List Char)
    (h : l.takeWhile p ≠ []) : (l.dropWhile p).length < l.length := by
  cases l with
  | nil => simp [List.takeWhile] at h
  | cons c cs =>
      by_cases hc : p c
      · simp only [List.dropWhile, hc]
        exact Nat.lt_succ_of_le (dropWhile_length_le p cs)
      · simp [List.takeWhile, hc] at h

theorem matchAndAt_length_lt {s r : List Char} (h : matchAndAt s = some r) :
    r.length < s.length := by
  unfold matchAndAt at h
  by_cases h1 : s.takeWhile isWsC = []
  · simp [h1] at h
  · simp only [h1, if_false] at h
    by_cases h2 : beginsWithI "and".data (s.dropWhile isWsC)
    · simp only [h2, if_true] at h
      by_cases h3 : ((s.dropWhile isWsC).drop 3).takeWhile isWsC = []
      · simp [h3] at h
      · simp only [h3, if_false, Option.some.injEq] at h
        subst h
        have hd1 : (s.dropWhile isWsC).length < s.length :=
          dropWhile_length_lt isWsC s h1
        have hd2 : (((s.dropWhile isWsC).drop 3).dropWhile isWsC).length
            ≤ ((s.dropWhile isWsC).drop 3).length :=
          dropWhile_length_le _ _
        have hd3 : ((s.dropWhile isWsC).drop 3).length
            ≤ (s.dropWhile isWsC).length := by
          simp [List.length_drop]
        omega
    · simp [h2] at h

/-- Engine of the global replace of `splitItems`, structurally recursive on
a fuel that bounds the remaining length (a match always consumes at least
one character, see `matchAndAt_length_lt`). -/
def replaceAndsFuel : ℕ → List Char → List Char
  | 0, _ => []
  | _ + 1, [] => []
  | fuel + 1, c :: s' =>
      match matchAndAt (c :: s') with
      | some rest => ',' :: ' ' :: replaceAndsFuel fuel rest
      | none => c :: replaceAndsFuel fuel s'

/-- The global replace of `splitItems`: every occurrence of `\s+and\s+`
(scanning left to right, continuing after each match) becomes `', '`. -/
def replaceAnds (s : List Char) : List Char :=
  replaceAndsFuel s.length s

/-- `splitItems`: replace `and` separators by commas, split on commas, trim,
drop empty pieces; fall back to the whole (untransformed) text. -/
def splitItems (text : String) : List String :=
  let parts := (((splitOnCharL ',' (replaceAnds text.data)).map
    (fun p => jsTrim (String.mk p))).filter (fun p => p ≠ ""))
  if parts.length > 0 then parts else [text]

/-- `capitalize` applied to one `split(' ')` word:
`word.charAt(0).toUpperCase() + word.slice(1)`. -/
def capitalizeWord : List Char → List Char
  | [] => []
  | c :: cs => upperC c :: cs

/-- `Array.prototype.join(' ')` on character-list pieces. -/
def joinSp : List (List Char) → List Char
  | [] => []
  | [x] => x
  | x :: y :: xs => x ++ ' ' :: joinSp (y :: xs)

/-- `capitalize`: first letter of each space-separated word upper-cased. -/
def capitalize (text : String) : String :=
  String.mk (joinSp ((splitOnCharL ' ' text.data).map capitalizeWord))

/-- `TEXT_TO_NUMBER[quantityText.toLowerCase()] || parseInt(quantityText)`.
The left operand, when present, is one of the table's values, none of which
is falsy; the `v = 0` test keeps the embedding of `||` exact. -/
def quantityOf (qt : List Char) : Option ℚ :=
  match textToNumber (jsLower (String.mk qt)) with
  | some v => if v = 0 then jsParseInt (String.mk qt) else some v
  | none => jsParseInt (String.mk qt)

/-- The body of `parseItem` run on a successful match array.  `none` models
a thrown `TypeError` (a dereference of an `undefined` match group), which
the theorems show is unreachable.  The JS `if (possibleName)` is falsy both
for `undefined` (match arrays of patterns 1–3 have no index 3) and for the
empty string, hence the two identical fall-through branches. -/
def parseItemWith (text : String) (groups : List (Option (List Char))) :
    Option ParsedItem :=
  match groups.getD 1 none with
  | none => none
  | some qt =>
      match groups.getD 3 none with
      | some pn =>
          if pn = [] then
            match groups.getD 2 none with
            | none => none
            | some pu =>
                some { name := capitalize (jsTrim (String.mk pu)),
                       quantity := quantityOf qt, unit := none,
                       originalText := text }
          else
            some { name := capitalize (jsTrim (String.mk pn)),
                   quantity := quantityOf qt,
                   unit := (groups.getD 2 none).map String.mk,
                   originalText := text }
      | none =>
          match groups.getD 2 none with
          | none => none
          | some pu =>
              some { name := capitalize (jsTrim (String.mk pu)),
                     quantity := quantityOf qt, unit := none,
                     originalText := text }

/-- `parseItem`: try the quantity patterns in order on the trimmed phrase;
with no match, the whole phrase (capitalized) is the name. -/
def parseItem (text : String) : Option ParsedItem :=
  match QUANTITY_PATTERNS.findSome? (fun m => m (jsTrim text).data) with
  | some groups => parseItemWith text groups
  | none =>
      some { name := capitalize (jsTrim text), quantity := none, unit := none,
             originalText := text }

/-- `parseVoiceCommand`, the pipeline entry point.  `none` models a thrown
error (shown unreachable by `parseVoiceCommand_total`). -/
def parseVoiceCommand (transcript : String) : Option ParsedCommand :=
  let normalized := jsTrim (jsLower transcript)
  let action := detectAction normalized
  let er := extractTargetList normalized
  let withoutAction := removeActionVerb er.1 action
  let itemTexts := splitItems withoutAction
  (itemTexts.mapM parseItem).map (fun items =>
    { action := action, items := items, targetList := er.2, raw := transcript })

/-- JS number-to-string, exact on the values this parser can produce
(natural numbers and the fractions 1/2 and 1/4). -/
def qToString (q : ℚ) : String :=
  if q.den = 1 then toString q.num
  else if q = 1/2 then "0.5"
  else if q = 1/4 then "0.25"
  else toString q.num ++ "/" ++ toString q.den

/-- `formatCommandSummary`.  The JS truthiness tests `item.quantity &&
item.unit` are falsy for an absent field, a zero quantity and an empty unit. -/
def formatCommandSummary (command : ParsedCommand) : String :=
  let action :=
    match command.action with
    | .complete => "Checked off"
    | .uncomplete => "Unchecked"
    | .remove => "Removed"
    | .add => "Added"
  let itemsList := String.intercalate ", " (command.items.map (fun item =>
    match item.quantity, item.unit with
    | some q, some u =>
        if q ≠ 0 && u ≠ "" then qToString q ++ " " ++ u ++ " of " ++ item.name
        else if q ≠ 0 then qToString q ++ " " ++ item.name
        else item.name
    | some q, none =>
        if q ≠ 0 then qToString q ++ " " ++ item.name else item.name
    | none, _ => item.name))
  action ++ " " ++ itemsList

/-! ## Character-class facts -/

theorem toNat_ofNat_small {n : ℕ} (h : n < 55296) : (Char.ofNat n).toNat = n := by
  unfold Char.ofNat
  rw [dif_pos]
  · rfl
  · exact Or.inl h

theorem lowerC_toNat (c : Char) :
    (lowerC c).toNat =
      if 65 ≤ c.toNat ∧ c.toNat ≤ 90 then c.toNat + 32 else c.toNat := by
  unfold lowerC
  by_cases h : 65 ≤ c.toNat ∧ c.toNat ≤ 90
  · rw [if_pos h, if_pos h, toNat_ofNat_small (by omega)]
  · rw [if_neg h, if_neg h]

theorem upperC_toNat (c : Char) :
    (upperC c).toNat =
      if 97 ≤ c.toNat ∧ c.toNat ≤ 122 then c.toNat - 32 else c.toNat := by
  unfold upperC
  by_cases h : 97 ≤ c.toNat ∧ c.toNat ≤ 122
  · rw [if_pos h, if_pos h, toNat_ofNat_small (by omega)]
  · rw [if_neg h, if_neg h]

theorem isWsC_iff (c : Char) : isWsC c = true ↔
    (c.toNat = 9 ∨ c.toNat = 10 ∨ c.toNat = 11 ∨ c.toNat = 12 ∨
    c.toNat = 13 ∨ c.toNat = 32 ∨ c.toNat = 160 ∨ c.toNat = 5760 ∨
    (8192 ≤ c.toNat ∧ c.toNat ≤ 8202) ∨ c.toNat = 8232 ∨ c.toNat = 8233 ∨
    c.toNat = 8239 ∨ c.toNat = 8287 ∨ c.toNat = 12288 ∨ c.toNat = 65279) := by
  simp [isWsC]

theorem isDotC_iff (c : Char) : isDotC c = true ↔
    ¬(c.toNat = 10 ∨ c.toNat = 13 ∨ c.toNat = 8232 ∨ c.toNat = 8233) := by
  simp [isDotC, isLineTermC]

theorem isDigitC_iff (c : Char) :
    isDigitC c = true ↔ (48 ≤ c.toNat ∧ c.toNat ≤ 57) := by
  simp [isDigitC]

theorem ws_of_digit_false {c : Char} (h : isDigitC c = true) :
    isWsC c = false := by
  rw [isDigitC_iff] at h
  rw [← Bool.not_eq_true, isWsC_iff]
  omega

theorem lowerC_id_of_not_upper {c : Char} (h : ¬(65 ≤ c.toNat ∧ c.toNat ≤ 90)) :
    lowerC c = c := by
  unfold lowerC
  rw [if_neg h]

theorem isWsC_lowerC (c : Char) : isWsC (lowerC c) = isWsC c := by
  by_cases h2 : 65 ≤ c.toNat ∧ c.toNat ≤ 90
  · have h1 : (lowerC c).toNat = c.toNat + 32 := by rw [lowerC_toNat, if_pos h2]
    have ha : isWsC (lowerC c) = false := by
      rw [← Bool.not_eq_true, isWsC_iff]; omega
    have hb : isWsC c = false := by
      rw [← Bool.not_eq_true, isWsC_iff]; omega
    rw [ha, hb]
  · rw [lowerC_id_of_not_upper h2]

theorem isDotC_lowerC (c : Char) : isDotC (lowerC c) = isDotC c := by
  by_cases h2 : 65 ≤ c.toNat ∧ c.toNat ≤ 90
  · have h1 : (lowerC c).toNat = c.toNat + 32 := by rw [lowerC_toNat, if_pos h2]
    have ha : isDotC (lowerC c) = true := by rw [isDotC_iff]; omega
    have hb : isDotC c = true := by rw [isDotC_iff]; omega
    rw [ha, hb]
  · rw [lowerC_id_of_not_upper h2]

theorem isDigitC_lowerC (c : Char) : isDigitC (lowerC c) = isDigitC c := by
  rw [Bool.eq_iff_iff, isDigitC_iff, isDigitC_iff, lowerC_toNat]
  by_cases h2 : 65 ≤ c.toNat ∧ c.toNat ≤ 90
  · rw [if_pos h2]; omega
  · rw [if_neg h2]

theorem lowerC_fix_of_digit {c : Char} (h : isDigitC c = true) :
    lowerC c = c := by
  rw [isDigitC_iff] at h
  unfold lowerC
  rw [if_neg (by omega)]

theorem lowerC_idem (c : Char) : lowerC (lowerC c) = lowerC c := by
  unfold lowerC
  by_cases h : 65 ≤ c.toNat ∧ c.toNat ≤ 90
  · rw [if_pos h]
    rw [if_neg]
    rw [toNat_ofNat_small (by omega)]
    omega
  · rw [if_neg h, if_neg h]

/-! ## Small list facts -/

theorem takeWhile_append_all {p : Char → Bool} {run : List Char}
    (h : run.all p) (rest : List Char) :
    (run ++ rest).takeWhile p = run ++ rest.takeWhile p := by
  induction run with
  | nil => simp
  | cons c cs ih =>
      simp only [List.all_cons, Bool.and_eq_true] at h
      simp [List.takeWhile, h.1, ih h.2]

theorem dropWhile_append_all {p : Char → Bool} {run : List Char}
    (h : run.all p) (rest : List Char) :
    (run ++ rest).dropWhile p = rest.dropWhile p := by
  induction run with
  | nil => simp
  | cons c cs ih =>
      simp only [List.all_cons, Bool.and_eq_true] at h
      simp [List.dropWhile, h.1, ih h.2]

theorem takeWhile_all (p : Char → Bool) (l : List Char) :
    (l.takeWhile p).all p := by
  induction l with
  | nil => simp
  | cons c cs ih =>
      by_cases hc : p c
      · simp [List.takeWhile, hc, ih]
      · simp [List.takeWhile, hc]

theorem takeWhile_cons_neg {p : Char → Bool} {c : Char} (h : p c = false)
    (l : List Char) : ((c :: l).takeWhile p) = [] := by
  simp [List.takeWhile, h]

theorem dropWhile_cons_neg {p : Char → Bool} {c : Char} (h : p c = false)
    (l : List Char) : ((c :: l).dropWhile p) = c :: l := by
  simp [List.dropWhile, h]

theorem dropWhile_head_not {p : Char → Bool} {l t : List Char} {c : Char}
    (h : l.dropWhile p = c :: t) : p c = false := by
  induction l with
  | nil => simp [List.dropWhile] at h
  | cons d ds ih =>
      by_cases hd : p d
      · rw [List.dropWhile_cons_of_pos hd] at h
        exact ih h
      · rw [List.dropWhile_cons_of_neg hd] at h
        cases h
        exact Bool.not_eq_true _ |>.mp hd

theorem mem_dropWhile {p : Char → Bool} {l : List Char} {a : Char}
    (h : a ∈ l.dropWhile p) : a ∈ l := by
  induction l with
  | nil => simp [List.dropWhile] at h
  | cons d ds ih =>
      by_cases hd : p d
      · rw [List.dropWhile_cons_of_pos hd] at h
        exact List.mem_cons_of_mem d (ih h)
      · rw [List.dropWhile_cons_of_neg hd] at h
        exact h

theorem head?_append_left {l l' : List Char} (h : l ≠ []) :
    (l ++ l').head? = l.head? := by
  cases l with
  | nil => exact absurd rfl h
  | cons c cs => simp

theorem snoc_inj {xs ys : List Char} {a b : Char}
    (h : xs ++ [a] = ys ++ [b]) : xs = ys ∧ a = b := by
  have h2 := List.append_inj h (by have := congrArg List.length h; simpa using this)
  exact ⟨h2.1, by simpa using h2.2⟩

theorem findSome?_inv {α β : Type} {f : α → Option β} {l : List α} {b : β}
    (h : l.findSome? f = some b) : ∃ a ∈ l, f a = some b := by
  induction l with
  | nil => simp [List.findSome?] at h
  | cons x xs ih =>
      rw [List.findSome?_cons] at h
      cases hx : f x with
      | some v =>
          rw [hx] at h
          cases h
          exact ⟨x, List.mem_cons_self x xs, hx⟩
      | none =>
          rw [hx] at h
          obtain ⟨a, ha, hfa⟩ := ih h
          exact ⟨a, List.mem_cons_of_mem x ha, hfa⟩

theorem findSome?_isSome_of_mem {α β : Type} {f : α → Option β} {l : List α}
    {a : α} (ha : a ∈ l) (h : (f a).isSome) : (l.findSome? f).isSome := by
  induction l with
  | nil => simp at ha
  | cons x xs ih =>
      rw [List.findSome?_cons]
      cases hx : f x with
      | some v => simp
      | none =>
          rcases List.mem_cons.mp ha with rfl | ha'
          · rw [hx] at h; simp at h
          · exact ih ha'

theorem mapM_nil_eq {α β : Type} (f : α → Option β) :
    ([] : List α).mapM f = some [] := rfl

theorem mapM_cons_eq {α β : Type} (f : α → Option β) (x : α) (xs : List α) :
    (x :: xs).mapM f =
      (f x).bind (fun y => (xs.mapM f).bind (fun ys => some (y :: ys))) := by
  rw [List.mapM_cons]
  cases hx : f x
  · simp
  · cases hxs : xs.mapM f <;> simp

theorem mapM_mem_inv {α β : Type} {f : α → Option β} {l : List α}
    {ys : List β} {y : β} (h : l.mapM f = some ys) (hy : y ∈ ys) :
    ∃ x ∈ l, f x = some y := by
  induction l generalizing ys with
  | nil =>
      rw [mapM_nil_eq] at h
      cases h
      simp at hy
  | cons x xs ih =>
      rw [mapM_cons_eq] at h
      cases hx : f x with
      | none => rw [hx] at h; simp at h
      | some v =>
          rw [hx] at h
          cases hxs : xs.mapM f with
          | none => rw [hxs] at h; simp at h
          | some vs =>
              rw [hxs] at h
              simp only [Option.some_bind, Option.some.injEq] at h
              subst h
              rcases List.mem_cons.mp hy with rfl | hy'
              · exact ⟨x, List.mem_cons_self x xs, hx⟩
              · obtain ⟨a, ha, hfa⟩ := ih hxs hy'
                exact ⟨a, List.mem_cons_of_mem x ha, hfa⟩

theorem mapM_isSome {α β : Type} {f : α → Option β} {l : List α}
    (h : ∀ x ∈ l, (f x).isSome) : (l.mapM f).isSome := by
  induction l with
  | nil => rw [mapM_nil_eq]; simp
  | cons x xs ih =>
      rw [mapM_cons_eq]
      cases hx : f x with
      | none =>
          have := h x (List.mem_cons_self x xs)
          rw [hx] at this
          simp at this
      | some v =>
          cases hxs : xs.mapM f with
          | none =>
              have := ih (fun a ha => h a (List.mem_cons_of_mem x ha))
              rw [hxs] at this
              simp at this
          | some vs => simp

theorem mapM_ne_nil {α β : Type} {f : α → Option β} {l : List α}
    {ys : List β} (h : l.mapM f = some ys) (hl : l ≠ []) : ys ≠ [] := by
  cases l with
  | nil => exact absurd rfl hl
  | cons x xs =>
      rw [mapM_cons_eq] at h
      cases hx : f x with
      | none => rw [hx] at h; simp at h
      | some v =>
          rw [hx] at h
          cases hxs : xs.mapM f with
          | none => rw [hxs] at h; simp at h
          | some vs =>
              rw [hxs] at h
              simp only [Option.some_bind, Option.some.injEq] at h
              subst h
              simp

/-! ## Combinator lemmas -/

theorem btRun_of_k {α : Type} {k : List Char → List Char → Option α}
    {rr rest : List Char} {a : α} (hne : rr ≠ [])
    (h : k rr.reverse rest = some a) : btRun k rr rest = some a := by
  cases rr with
  | nil => exact absurd rfl hne
  | cons c rr' =>
      unfold btRun
      rw [h]

theorem btRun_inv {α : Type} {k : List Char → List Char → Option α} :
    ∀ {rr rest : List Char} {a : α}, btRun k rr rest = some a →
    ∃ run1 ext, run1 ≠ [] ∧ rr.reverse = run1 ++ ext ∧
      k run1 (ext ++ rest) = some a := by
  intro rr
  induction rr with
  | nil => intro rest a h; simp [btRun] at h
  | cons c rr' ih =>
      intro rest a h
      unfold btRun at h
      cases hk : k (c :: rr').reverse rest with
      | some v =>
          rw [hk] at h
          cases h
          exact ⟨(c :: rr').reverse, [], by simp, by simp, by simpa using hk⟩
      | none =>
          rw [hk] at h
          obtain ⟨run1, ext', hne, heq, hkk⟩ := ih h
          refine ⟨run1, ext' ++ [c], hne, ?_, ?_⟩
          · rw [List.reverse_cons, heq, List.append_assoc]
          · rw [List.append_assoc]
            simpa using hkk

theorem btRun_isSome_cover {α : Type} {k : List Char → List Char → Option α} :
    ∀ {rr rest : List Char} (run1 ext : List Char),
    rr.reverse = run1 ++ ext → run1 ≠ [] →
    (k run1 (ext ++ rest)).isSome → (btRun k rr rest).isSome := by
  intro rr
  induction rr with
  | nil =>
      intro rest run1 ext heq hne _
      rw [List.reverse_nil] at heq
      cases run1 with
      | nil => exact absurd rfl hne
      | cons x xs => simp at heq
  | cons c rr' ih =>
      intro rest run1 ext heq hne hk
      unfold btRun
      cases hk0 : k (c :: rr').reverse rest with
      | some v => simp
      | none =>
          rcases List.eq_nil_or_concat' ext with rfl | ⟨ext', e, rfl⟩
          · rw [List.append_nil] at heq
            rw [heq] at hk0
            rw [List.nil_append] at hk
            rw [hk0] at hk
            simp at hk
          · rw [List.reverse_cons, ← List.append_assoc] at heq
            obtain ⟨heq', he⟩ := snoc_inj heq
            subst he
            refine ih run1 ext' heq' hne ?_
            have hassoc : ext' ++ [c] ++ rest = ext' ++ (c :: rest) := by
              rw [List.append_assoc]
              rfl
            rw [hassoc] at hk
            exact hk

theorem plusThen_of_first {α : Type} {p : Char → Bool}
    {k : List Char → List Char → Option α} {s : List Char} {a : α}
    (hne : s.takeWhile p ≠ [])
    (h : k (s.takeWhile p) (s.dropWhile p) = some a) :
    plusThen p k s = some a := by
  unfold plusThen
  exact btRun_of_k (by simpa using hne) (by simpa using h)

theorem plusThen_inv {α : Type} {p : Char → Bool}
    {k : List Char → List Char → Option α} {s : List Char} {a : α}
    (h : plusThen p k s = some a) :
    ∃ run rest, s = run ++ rest ∧ run ≠ [] ∧ run.all p ∧
      k run rest = some a := by
  unfold plusThen at h
  obtain ⟨run1, ext, hne, heq, hk⟩ := btRun_inv h
  rw [List.reverse_reverse] at heq
  refine ⟨run1, ext ++ s.dropWhile p, ?_, hne, ?_, ?_⟩
  · conv_lhs => rw [← List.takeWhile_append_dropWhile (p := p) (l := s)]
    rw [heq, List.append_assoc]
  · have hall := takeWhile_all p s
    rw [heq, List.all_append, Bool.and_eq_true] at hall
    exact hall.1
  · exact hk

theorem plusThen_isSome_of_split {α : Type} {p : Char → Bool}
    {k : List Char → List Char → Option α} {s run rest : List Char}
    (hs : s = run ++ rest) (hne : run ≠ []) (hall : run.all p)
    (hk : (k run rest).isSome) : (plusThen p k s).isSome := by
  unfold plusThen
  rw [hs, takeWhile_append_all hall, dropWhile_append_all hall]
  refine btRun_isSome_cover run (rest.takeWhile p)
    (by rw [List.reverse_reverse]) hne ?_
  rw [List.takeWhile_append_dropWhile]
  exact hk

theorem eqIList_length {w u : List Char} (h : eqIList w u = true) :
    w.length = u.length := by
  induction w generalizing u with
  | nil => cases u with
    | nil => rfl
    | cons c cs => simp [eqIList] at h
  | cons x xs ih =>
      cases u with
      | nil => simp [eqIList] at h
      | cons c cs =>
          simp only [eqIList, Bool.and_eq_true] at h
          simp [ih h.2]

theorem beginsWithI_decomp {w s : List Char} (h : beginsWithI w s = true) :
    ∃ u rest, s = u ++ rest ∧ eqIList w u = true ∧
      u = s.take w.length ∧ rest = s.drop w.length := by
  induction w generalizing s with
  | nil => exact ⟨[], s, rfl, rfl, by simp, by simp⟩
  | cons x xs ih =>
      cases s with
      | nil => simp [beginsWithI] at h
      | cons c cs =>
          simp only [beginsWithI, Bool.and_eq_true] at h
          obtain ⟨u, rest, hs, he, hu, hr⟩ := ih h.2
          refine ⟨c :: u, rest, by simp [hs], ?_, by simp [hu], by simp [hr]⟩
          simp [eqIList, h.1, he]

theorem beginsWithI_of_eqIList {w u : List Char} (h : eqIList w u = true)
    (rest : List Char) : beginsWithI w (u ++ rest) = true := by
  induction w generalizing u with
  | nil => simp [beginsWithI]
  | cons x xs ih =>
      cases u with
      | nil => simp [eqIList] at h
      | cons c cs =>
          simp only [eqIList, Bool.and_eq_true] at h
          simp only [List.cons_append, beginsWithI, Bool.and_eq_true]
          exact ⟨h.1, ih h.2⟩

theorem litIThen_inv {α : Type} {w : List Char} {k : List Char → Option α}
    {s : List Char} {a : α} (h : litIThen w k s = some a) :
    ∃ u rest, s = u ++ rest ∧ eqIList w u = true ∧ k rest = some a := by
  unfold litIThen at h
  by_cases hb : beginsWithI w s = true
  · rw [if_pos hb] at h
    obtain ⟨u, rest, hs, he, _, hr⟩ := beginsWithI_decomp hb
    exact ⟨u, rest, hs, he, by rw [← hr] at h; exact h⟩
  · rw [if_neg hb] at h
    cases h

theorem litIThen_of_eqIList {α : Type} {w u : List Char}
    {k : List Char → Option α} (h : eqIList w u = true) (rest : List Char) :
    litIThen w k (u ++ rest) = k rest := by
  unfold litIThen
  rw [if_pos (beginsWithI_of_eqIList h rest)]
  congr 1
  rw [eqIList_length h, List.drop_left' rfl]

theorem altLitsThen_inv {α : Type} {ws : List (List Char)}
    {k : List Char → List Char → Option α} {s : List Char} {a : α}
    (h : altLitsThen ws k s = some a) :
    ∃ w ∈ ws, ∃ u rest, s = u ++ rest ∧ eqIList w u = true ∧
      k u rest = some a := by
  unfold altLitsThen at h
  obtain ⟨w, hw, hfw⟩ := findSome?_inv h
  by_cases hb : beginsWithI w s = true
  · rw [if_pos hb] at hfw
    obtain ⟨u, rest, hs, he, hu, hr⟩ := beginsWithI_decomp hb
    exact ⟨w, hw, u, rest, hs, he, by rw [← hu, ← hr] at hfw; exact hfw⟩
  · rw [if_neg hb] at hfw
    cases hfw

theorem altLitsThen_isSome_of {α : Type} {ws : List (List Char)}
    {k : List Char → List Char → Option α} {s u rest w : List Char}
    (hw : w ∈ ws) (he : eqIList w u = true) (hs : s = u ++ rest)
    (hk : (k u rest).isSome) : (altLitsThen ws k s).isSome := by
  unfold altLitsThen
  refine findSome?_isSome_of_mem hw ?_
  rw [hs, if_pos (beginsWithI_of_eqIList he rest)]
  have hl : u.length = w.length := (eqIList_length he).symm
  rw [List.take_left' hl, List.drop_left' hl]
  exact hk

theorem lazyDotGo_inv {α : Type} {k : List Char → List Char → Option α} :
    ∀ {rest accRev : List Char} {a : α}, lazyDotGo k accRev rest = some a →
    ∃ add rest', rest = add ++ rest' ∧ add ≠ [] ∧ add.all isDotC ∧
      k (accRev.reverse ++ add) rest' = some a := by
  intro rest
  induction rest with
  | nil => intro accRev a h; simp [lazyDotGo] at h
  | cons c rest' ih =>
      intro accRev a h
      unfold lazyDotGo at h
      by_cases hc : isDotC c = true
      · rw [if_pos hc] at h
        cases hk : k (c :: accRev).reverse rest' with
        | some v =>
            rw [hk] at h
            cases h
            refine ⟨[c], rest', rfl, by simp, by simp [hc], ?_⟩
            simpa using hk
        | none =>
            rw [hk] at h
            obtain ⟨add', rest'', hr, hne, hall, hkk⟩ := ih h
            refine ⟨c :: add', rest'', by simp [hr], by simp, ?_, ?_⟩
            · simp [hc, hall]
            · rw [List.reverse_cons, List.append_assoc] at hkk
              simpa using hkk
      · rw [if_neg hc] at h
        cases h

theorem lazyDotThen_inv {α : Type} {k : List Char → List Char → Option α}
    {s : List Char} {a : α} (h : lazyDotThen k s = some a) :
    ∃ cap rest, s = cap ++ rest ∧ cap ≠ [] ∧ cap.all isDotC ∧
      k cap rest = some a := by
  obtain ⟨add, rest', hr, hne, hall, hk⟩ := lazyDotGo_inv h
  exact ⟨add, rest', hr, hne, hall, by simpa using hk⟩

theorem searchPos_nil {α : Type} (m : List Char → Option α)
    (pre : List Char) :
    searchPos m pre [] =
      (match m [] with
      | some a => some (pre, a)
      | none => none) := rfl

theorem searchPos_cons {α : Type} (m : List Char → Option α)
    (pre : List Char) (c : Char) (s' : List Char) :
    searchPos m pre (c :: s') =
      (match m (c :: s') with
      | some a => some (pre, a)
      | none => searchPos m (pre ++ [c]) s') := rfl

theorem searchPos_inv {α : Type} {m : List Char → Option α} :
    ∀ {s pre pre' : List Char} {a : α},
    searchPos m pre s = some (pre', a) →
    ∃ mid sfx, pre' = pre ++ mid ∧ s = mid ++ sfx ∧ m sfx = some a := by
  intro s
  induction s with
  | nil =>
      intro pre pre' a h
      rw [searchPos_nil] at h
      cases hm : m [] with
      | some v =>
          rw [hm] at h
          have h' : some (pre, v) = some (pre', a) := h
          cases h'
          exact ⟨[], [], by simp, by simp, hm⟩
      | none =>
          rw [hm] at h
          have h' : (none : Option (List Char × α)) = some (pre', a) := h
          cases h'
  | cons c s' ih =>
      intro pre pre' a h
      rw [searchPos_cons] at h
      cases hm : m (c :: s') with
      | some v =>
          rw [hm] at h
          have h' : some (pre, v) = some (pre', a) := h
          cases h'
          exact ⟨[], c :: s', by simp, by simp, hm⟩
      | none =>
          rw [hm] at h
          have h' : searchPos m (pre ++ [c]) s' = some (pre', a) := h
          obtain ⟨mid', sfx, hp, hs, hmm⟩ := ih h'
          refine ⟨c :: mid', sfx, ?_, by simp [hs], hmm⟩
          rw [hp, List.append_assoc]
          rfl

theorem searchPos_isSome_of {α : Type} {m : List Char → Option α} :
    ∀ {mid sfx s : List Char}, s = mid ++ sfx → (m sfx).isSome →
    ∀ pre, (searchPos m pre s).isSome := by
  intro mid
  induction mid with
  | nil =>
      intro sfx s hs hm pre
      rw [List.nil_append] at hs
      subst hs
      obtain ⟨v, hv⟩ := Option.isSome_iff_exists.mp hm
      cases s with
      | nil => rw [searchPos_nil, hv]; simp
      | cons c s' => rw [searchPos_cons, hv]; simp
  | cons c mid' ih =>
      intro sfx s hs hm pre
      subst hs
      rw [List.cons_append, searchPos_cons]
      cases hmm : m (c :: (mid' ++ sfx)) with
      | some v => simp
      | none => exact ih rfl hm (pre ++ [c])

/-! ## Facts about `trimL` and `capitalize` -/

theorem mem_trimL {l : List Char} {a : Char} (h : a ∈ trimL l) : a ∈ l := by
  unfold trimL at h
  rw [List.mem_reverse] at h
  have h2 := mem_dropWhile h
  rw [List.mem_reverse] at h2
  exact mem_dropWhile h2

theorem trimL_eq_nil_iff {l : List Char} :
    trimL l = [] ↔ ∀ c ∈ l, isWsC c = true := by
  unfold trimL
  rw [List.reverse_eq_nil_iff, List.dropWhile_eq_nil_iff]
  constructor
  · intro h c hc
    by_cases hw : isWsC c = true
    · exact hw
    · exfalso
      have hc2 : c ∈ l.dropWhile isWsC := by
        by_contra hno
        -- c is in l but dropped by dropWhile: then c satisfies isWsC
        have : l.takeWhile isWsC ++ l.dropWhile isWsC = l :=
          List.takeWhile_append_dropWhile isWsC l
        rw [← this] at hc
        rcases List.mem_append.mp hc with h1 | h1
        · have := List.all_eq_true.mp (takeWhile_all isWsC l) c h1
          exact hw this
        · exact hno h1
      have := h c (List.mem_reverse.mpr hc2)
      exact hw this
  · intro h c hc
    exact h c (mem_dropWhile (List.mem_reverse.mp hc))

theorem trimL_ne_nil_of_mem {l : List Char} {c : Char} (hc : c ∈ l)
    (hw : isWsC c = false) : trimL l ≠ [] := by
  intro h
  have := trimL_eq_nil_iff.mp h c hc
  rw [this] at hw
  cases hw

theorem dropWhile_eq_cons_head {p : Char → Bool} {l : List Char}
    (h : l.dropWhile p ≠ []) :
    ∃ c t, l.dropWhile p = c :: t ∧ p c = false := by
  cases hd : l.dropWhile p with
  | nil => exact absurd hd h
  | cons c t => exact ⟨c, t, rfl, dropWhile_head_not hd⟩

theorem trimL_last_not_ws {l : List Char} (h : trimL l ≠ []) :
    ∃ l' c, trimL l = l' ++ [c] ∧ isWsC c = false := by
  unfold trimL at h ⊢
  have h2 : (l.dropWhile isWsC).reverse.dropWhile isWsC ≠ [] := by
    intro hx
    rw [hx] at h
    exact h rfl
  obtain ⟨c, t, hct, hc⟩ := dropWhile_eq_cons_head h2
  refine ⟨t.reverse, c, ?_, hc⟩
  rw [hct]
  simp

theorem trimL_eq_self {l : List Char}
    (h1 : ∃ c t, l = c :: t ∧ isWsC c = false)
    (h2 : ∃ l' c, l = l' ++ [c] ∧ isWsC c = false) : trimL l = l := by
  obtain ⟨c, t, hct, hc⟩ := h1
  obtain ⟨l', e, hle, he⟩ := h2
  unfold trimL
  have hfront : l.dropWhile isWsC = l := by
    rw [hct]
    exact dropWhile_cons_neg hc t
  rw [hfront, hle, List.reverse_append]
  simp only [List.reverse_cons, List.reverse_nil, List.nil_append,
    List.singleton_append]
  rw [dropWhile_cons_neg he l'.reverse]
  simp

theorem isWsC_upperC (c : Char) : isWsC (upperC c) = isWsC c := by
  by_cases h2 : 97 ≤ c.toNat ∧ c.toNat ≤ 122
  · have h1 : (upperC c).toNat = c.toNat - 32 := by rw [upperC_toNat, if_pos h2]
    have ha : isWsC (upperC c) = false := by
      rw [← Bool.not_eq_true, isWsC_iff]; omega
    have hb : isWsC c = false := by
      rw [← Bool.not_eq_true, isWsC_iff]; omega
    rw [ha, hb]
  · unfold upperC
    rw [if_neg h2]

theorem capWord_mask (w : List Char) :
    (capitalizeWord w).map isWsC = w.map isWsC := by
  cases w with
  | nil => rfl
  | cons c cs => simp [capitalizeWord, isWsC_upperC]

theorem joinSp_map_mask :
    ∀ parts : List (List Char),
    (joinSp (parts.map capitalizeWord)).map isWsC =
      (joinSp parts).map isWsC
  | [] => by simp [joinSp]
  | [x] => by simp [joinSp, capWord_mask x]
  | x :: y :: xs => by
      simp only [List.map_cons, joinSp, List.map_append]
      rw [capWord_mask x]
      have hr := joinSp_map_mask (y :: xs)
      simp only [List.map_cons] at hr
      simp [hr]

theorem splitAux_ne_nil (sep : Char) :
    ∀ (l acc : List Char), splitAux sep l acc ≠ [] := by
  intro l
  induction l with
  | nil => intro acc; simp [splitAux]
  | cons c cs ih =>
      intro acc
      unfold splitAux
      by_cases hc : c == sep
      · rw [if_pos hc]; simp
      · rw [if_neg hc]; exact ih (c :: acc)

theorem joinSp_splitAux :
    ∀ (l acc : List Char), joinSp (splitAux ' ' l acc) = acc.reverse ++ l := by
  intro l
  induction l with
  | nil => intro acc; simp [splitAux, joinSp]
  | cons c cs ih =>
      intro acc
      unfold splitAux
      by_cases hc : c == ' '
      · rw [if_pos hc]
        have hceq : c = ' ' := by simpa using hc
        cases hrest : splitAux ' ' cs [] with
        | nil => exact absurd hrest (splitAux_ne_nil ' ' cs [])
        | cons y ys =>
            have hjy : joinSp (y :: ys) = cs := by
              rw [← hrest, ih []]
              simp
            rw [joinSp, hjy, hceq]
      · rw [if_neg hc]
        rw [ih (c :: acc)]
        simp

theorem capitalize_mask (l : List Char) :
    (capitalize (String.mk l)).data.map isWsC = l.map isWsC := by
  show (joinSp ((splitOnCharL ' ' l).map capitalizeWord)).map isWsC
      = l.map isWsC
  rw [joinSp_map_mask]
  unfold splitOnCharL
  rw [joinSp_splitAux]
  simp

theorem exists_not_ws_capitalize {l : List Char}
    (h : ∃ c ∈ l, isWsC c = false) :
    ∃ c ∈ (capitalize (String.mk l)).data, isWsC c = false := by
  obtain ⟨c, hc, hcw⟩ := h
  have hf : (false : Bool) ∈ l.map isWsC := List.mem_map.mpr ⟨c, hc, hcw⟩
  rw [← capitalize_mask l] at hf
  obtain ⟨c', hc', hcw'⟩ := List.mem_map.mp hf
  exact ⟨c', hc', hcw'⟩

theorem string_mk_ne_empty {l : List Char} (h : l ≠ []) :
    String.mk l ≠ "" := by
  intro heq
  have := congrArg String.data heq
  simp at this
  exact h this

theorem jsTrim_capitalize_ne {l : List Char}
    (h : ∃ c ∈ l, isWsC c = false) :
    jsTrim (capitalize (String.mk l)) ≠ "" := by
  obtain ⟨c', hc', hcw'⟩ := exists_not_ws_capitalize h
  unfold jsTrim
  exact string_mk_ne_empty (trimL_ne_nil_of_mem hc' hcw')

/-! ## Facts about the word tables -/

/-- A word of a pattern's alternation: non-empty, head a lowercase letter. -/
def wordOkB (w : String) : Bool :=
  match w.data with
  | [] => false
  | c :: _ => decide (97 ≤ c.toNat ∧ c.toNat ≤ 122)

theorem unitWords_ok : unitWords.all wordOkB = true := by decide

theorem numWords12_ok : numWords12.all wordOkB = true := by decide

theorem numWords10_ok : numWords10.all wordOkB = true := by decide

theorem fracWords_ok : fracWords.all wordOkB = true := by decide

theorem numWords10_sub : ∀ w ∈ numWords10, w ∈ numWords12 := by decide

theorem wordOk_head {w : String} (h : wordOkB w = true) :
    ∃ c t, w.data = c :: t ∧ 97 ≤ c.toNat ∧ c.toNat ≤ 122 := by
  unfold wordOkB at h
  cases hw : w.data with
  | nil => rw [hw] at h; cases h
  | cons c t =>
      rw [hw] at h
      exact ⟨c, t, rfl, by simpa using h⟩

theorem char_ne_of_toNat_ne {c d : Char} (h : c.toNat ≠ d.toNat) : c ≠ d :=
  fun he => h (congrArg Char.toNat he)

/-- A character that case-insensitively equals a lowercase letter is neither
whitespace, nor a digit, nor a sign character. -/
theorem letter_of_eqIC {x c : Char} (hx : 97 ≤ x.toNat ∧ x.toNat ≤ 122)
    (h : eqIC x c = true) :
    isWsC c = false ∧ isDigitC c = false ∧ c ≠ '-' ∧ c ≠ '+' := by
  unfold eqIC at h
  have hxc : lowerC x = lowerC c := by simpa using h
  have hlx : lowerC x = x := by
    unfold lowerC
    rw [if_neg (by omega)]
  by_cases hc : 65 ≤ c.toNat ∧ c.toNat ≤ 90
  · refine ⟨?_, ?_, ?_, ?_⟩
    · rw [← Bool.not_eq_true, isWsC_iff]; omega
    · rw [← Bool.not_eq_true, isDigitC_iff]; omega
    · exact char_ne_of_toNat_ne (by simp; omega)
    · exact char_ne_of_toNat_ne (by simp; omega)
  · have hcc : lowerC c = c := lowerC_id_of_not_upper hc
    have hcx : c = x := by rw [← hcc, ← hxc, hlx]
    subst hcx
    refine ⟨?_, ?_, ?_, ?_⟩
    · rw [← Bool.not_eq_true, isWsC_iff]; omega
    · rw [← Bool.not_eq_true, isDigitC_iff]; omega
    · exact char_ne_of_toNat_ne (by simp; omega)
    · exact char_ne_of_toNat_ne (by simp; omega)

/-- The head of a capture that case-insensitively equals a table word is a
non-whitespace, non-digit, non-sign character (and the capture is nonempty). -/
theorem capture_head_facts {w : String} {u : List Char}
    (hok : wordOkB w = true) (he : eqIList w.data u = true) :
    ∃ c t, u = c :: t ∧ isWsC c = false ∧ isDigitC c = false ∧
      c ≠ '-' ∧ c ≠ '+' := by
  obtain ⟨x, xt, hwd, hx1, hx2⟩ := wordOk_head hok
  rw [hwd] at he
  cases u with
  | nil => simp [eqIList] at he
  | cons c t =>
      simp only [eqIList, Bool.and_eq_true] at he
      obtain ⟨h1, h2, h3, h4⟩ := letter_of_eqIC ⟨hx1, hx2⟩ he.1
      exact ⟨c, t, rfl, h1, h2, h3, h4⟩

/-! ## Inversion lemmas for the five quantity patterns -/

theorem dotAllEnd_inv {s cap : List Char} (h : dotAllEnd s = some cap) :
    cap = s ∧ s ≠ [] ∧ s.all isDotC := by
  unfold dotAllEnd at h
  by_cases hc : (s ≠ [] && s.all isDotC) = true
  · rw [if_pos (by simpa using hc)] at h
    cases h
    simp only [Bool.and_eq_true, decide_eq_true_eq] at hc
    exact ⟨rfl, by simpa using hc.1, hc.2⟩
  · rw [if_neg (by simpa using hc)] at h
    cases h

theorem dotAllEnd_some {s : List Char} (h1 : s ≠ []) (h2 : s.all isDotC) :
    dotAllEnd s = some s := by
  unfold dotAllEnd
  rw [if_pos]
  simp [h1, h2]

theorem qpat1_inv {s : List Char} {gs : List (Option (List Char))}
    (h : qpat1 s = some gs) :
    ∃ d w r, s = d ++ (w ++ r) ∧ d ≠ [] ∧ d.all isDigitC ∧ w ≠ [] ∧
      w.all isWsC ∧ r ≠ [] ∧ r.all isDotC ∧
      gs = [some s, some d, some r] := by
  obtain ⟨d, rest1, hs1, hdne, hdall, hk1⟩ := plusThen_inv h
  obtain ⟨w, rest2, hs2, hwne, hwall, hk2⟩ := plusThen_inv hk1
  cases hde : dotAllEnd rest2 with
  | none => rw [hde] at hk2; cases hk2
  | some cap =>
      rw [hde] at hk2
      obtain ⟨hceq, hne, hall⟩ := dotAllEnd_inv hde
      subst hceq
      have hgs : gs = [some s, some d, some cap] := by
        have h' : some [some s, some d, some cap] = some gs := hk2
        cases h'
        rfl
      exact ⟨d, w, cap, by rw [hs1, hs2], hdne, hdall, hwne, hwall,
        hne, hall, hgs⟩

theorem qpat2_inv {s : List Char} {gs : List (Option (List Char))}
    (h : qpat2 s = some gs) :
    ∃ u w r, s = u ++ (w ++ r) ∧
      (∃ word ∈ numWords12, eqIList word.data u = true) ∧ w ≠ [] ∧
      w.all isWsC ∧ r ≠ [] ∧ r.all isDotC ∧
      gs = [some s, some u, some r] := by
  obtain ⟨wd, hwd, u, rest1, hs1, heqi, hk1⟩ := altLitsThen_inv h
  obtain ⟨word, hword, rfl⟩ := List.mem_map.mp hwd
  obtain ⟨w, rest2, hs2, hwne, hwall, hk2⟩ := plusThen_inv hk1
  cases hde : dotAllEnd rest2 with
  | none => rw [hde] at hk2; cases hk2
  | some cap =>
      rw [hde] at hk2
      obtain ⟨hceq, hne, hall⟩ := dotAllEnd_inv hde
      subst hceq
      have hgs : gs = [some s, some u, some cap] := by
        have h' : some [some s, some u, some cap] = some gs := hk2
        cases h'
        rfl
      exact ⟨u, w, cap, by rw [hs1, hs2], ⟨word, hword, heqi⟩, hwne, hwall,
        hne, hall, hgs⟩

theorem qpat3_inv {s : List Char} {gs : List (Option (List Char))}
    (h : qpat3 s = some gs) :
    ∃ u w r, s = u ++ (w ++ r) ∧
      (∃ word ∈ fracWords, eqIList word.data u = true) ∧ w ≠ [] ∧
      w.all isWsC ∧ r ≠ [] ∧ r.all isDotC ∧
      gs = [some s, some u, some r] := by
  obtain ⟨wd, hwd, u, rest1, hs1, heqi, hk1⟩ := altLitsThen_inv h
  obtain ⟨word, hword, rfl⟩ := List.mem_map.mp hwd
  obtain ⟨w, rest2, hs2, hwne, hwall, hk2⟩ := plusThen_inv hk1
  cases hde : dotAllEnd rest2 with
  | none => rw [hde] at hk2; cases hk2
  | some cap =>
      rw [hde] at hk2
      obtain ⟨hceq, hne, hall⟩ := dotAllEnd_inv hde
      subst hceq
      have hgs : gs = [some s, some u, some cap] := by
        have h' : some [some s, some u, some cap] = some gs := hk2
        cases h'
        rfl
      exact ⟨u, w, cap, by rw [hs1, hs2], ⟨word, hword, heqi⟩, hwne, hwall,
        hne, hall, hgs⟩

theorem optThen_inv {α : Type}
    {m : (List Char → Option α) → List Char → Option α}
    {k : List Char → Option α} {s : List Char} {a : α}
    (h : optThen m k s = some a) :
    m k s = some a ∨ (m k s = none ∧ k s = some a) := by
  unfold optThen at h
  cases hm : m k s with
  | some v =>
      rw [hm] at h
      have h' : some v = some a := h
      cases h'
      exact Or.inl rfl
  | none =>
      rw [hm] at h
      have h' : k s = some a := h
      exact Or.inr ⟨rfl, h'⟩

theorem optOfThen_inv {α : Type} {k : List Char → Option α} {s : List Char}
    {a : α} (h : optOfThen k s = some a) :
    ∃ mid rest, s = mid ++ rest ∧ k rest = some a ∧
      (mid = [] ∨ ∃ o wo, mid = o ++ wo ∧ eqIList "of".data o = true ∧
        wo ≠ [] ∧ wo.all isWsC) := by
  unfold optOfThen at h
  rcases optThen_inv h with hbody | ⟨_, hk⟩
  · obtain ⟨o, r', hs, heo, hk1⟩ := litIThen_inv hbody
    obtain ⟨wo, r'', hs2, hwne, hwall, hk2⟩ := plusThen_inv hk1
    exact ⟨o ++ wo, r'', by rw [hs, hs2, List.append_assoc], hk2,
      Or.inr ⟨o, wo, rfl, heo, hwne, hwall⟩⟩
  · exact ⟨[], s, by simp, hk, Or.inl rfl⟩

theorem qpat4_inv {s : List Char} {gs : List (Option (List Char))}
    (h : qpat4 s = some gs) :
    ∃ d w1 u w2 mid r, s = d ++ (w1 ++ (u ++ (w2 ++ (mid ++ r)))) ∧
      d ≠ [] ∧ d.all isDigitC ∧ w1 ≠ [] ∧ w1.all isWsC ∧
      (∃ word ∈ unitWords, eqIList word.data u = true) ∧
      w2 ≠ [] ∧ w2.all isWsC ∧ r ≠ [] ∧ r.all isDotC ∧
      gs = [some s, some d, some u, some r] := by
  obtain ⟨d, rest1, hs1, hdne, hdall, hk1⟩ := plusThen_inv h
  obtain ⟨w1, rest2, hs2, hw1ne, hw1all, hk2⟩ := plusThen_inv hk1
  obtain ⟨wd, hwd, u, rest3, hs3, heqi, hk3⟩ := altLitsThen_inv hk2
  obtain ⟨word, hword, rfl⟩ := List.mem_map.mp hwd
  obtain ⟨w2, rest4, hs4, hw2ne, hw2all, hk4⟩ := plusThen_inv hk3
  obtain ⟨mid, rest5, hs5, hk5, hmid⟩ := optOfThen_inv hk4
  cases hde : dotAllEnd rest5 with
  | none => rw [hde] at hk5; cases hk5
  | some cap =>
      rw [hde] at hk5
      obtain ⟨hceq, hne, hall⟩ := dotAllEnd_inv hde
      subst hceq
      have hgs : gs = [some s, some d, some u, some cap] := by
        have h' : some [some s, some d, some u, some cap] = some gs := hk5
        cases h'
        rfl
      exact ⟨d, w1, u, w2, mid, cap,
        by rw [hs1, hs2, hs3, hs4, hs5], hdne, hdall, hw1ne, hw1all,
        ⟨word, hword, heqi⟩, hw2ne, hw2all, hne, hall, hgs⟩

theorem qpat5_inv {s : List Char} {gs : List (Option (List Char))}
    (h : qpat5 s = some gs) :
    ∃ n w1 u w2 mid r, s = n ++ (w1 ++ (u ++ (w2 ++ (mid ++ r)))) ∧
      (∃ word ∈ numWords10, eqIList word.data n = true) ∧
      w1 ≠ [] ∧ w1.all isWsC ∧
      (∃ word ∈ unitWords, eqIList word.data u = true) ∧
      w2 ≠ [] ∧ w2.all isWsC ∧ r ≠ [] ∧ r.all isDotC ∧
      gs = [some s, some n, some u, some r] := by
  obtain ⟨wd, hwd, n, rest1, hs1, heqn, hk1⟩ := altLitsThen_inv h
  obtain ⟨word1, hword1, rfl⟩ := List.mem_map.mp hwd
  obtain ⟨w1, rest2, hs2, hw1ne, hw1all, hk2⟩ := plusThen_inv hk1
  obtain ⟨wd2, hwd2, u, rest3, hs3, heqi, hk3⟩ := altLitsThen_inv hk2
  obtain ⟨word2, hword2, rfl⟩ := List.mem_map.mp hwd2
  obtain ⟨w2, rest4, hs4, hw2ne, hw2all, hk4⟩ := plusThen_inv hk3
  obtain ⟨mid, rest5, hs5, hk5, hmid⟩ := optOfThen_inv hk4
  cases hde : dotAllEnd rest5 with
  | none => rw [hde] at hk5; cases hk5
  | some cap =>
      rw [hde] at hk5
      obtain ⟨hceq, hne, hall⟩ := dotAllEnd_inv hde
      subst hceq
      have hgs : gs = [some s, some n, some u, some cap] := by
        have h' : some [some s, some n, some u, some cap] = some gs := hk5
        cases h'
        rfl
      exact ⟨n, w1, u, w2, mid, cap,
        by rw [hs1, hs2, hs3, hs4, hs5], ⟨word1, hword1, heqn⟩,
        hw1ne, hw1all, ⟨word2, hword2, heqi⟩, hw2ne, hw2all, hne, hall, hgs⟩

/-! ## Facts about `textToNumber` and `jsParseInt` -/

theorem signSplit_no_sign {c : Char} {t : List Char} (h1 : c ≠ '-')
    (h2 : c ≠ '+') : signSplit (c :: t) = (false, c :: t) := by
  unfold signSplit
  split
  · next rest heq =>
      injection heq with hc _
      exact absurd hc h1
  · next rest heq =>
      injection heq with hc _
      exact absurd hc h2
  · rfl

theorem TEXT_TO_NUMBER_keys_ok :
    TEXT_TO_NUMBER.all (fun p => wordOkB p.1) = true := by decide

theorem TEXT_TO_NUMBER_vals_pos :
    TEXT_TO_NUMBER.all (fun p => decide (0 < p.2)) = true := by decide

theorem textToNumber_digits_none {s : List Char} (hne : s ≠ [])
    (hall : s.all isDigitC) : textToNumber (String.mk s) = none := by
  unfold textToNumber
  rw [List.find?_eq_none.mpr]
  · rfl
  · intro p hp
    simp only [beq_iff_eq]
    intro hq
    have hd : p.1.data = s := by rw [hq]
    have hok := List.all_eq_true.mp TEXT_TO_NUMBER_keys_ok p hp
    obtain ⟨c, t, hct, h1, h2⟩ := wordOk_head hok
    rw [hct] at hd
    rw [← hd] at hall
    simp only [List.all_cons, Bool.and_eq_true] at hall
    have := (isDigitC_iff c).mp hall.1
    omega

theorem textToNumber_pos {x : String} {v : ℚ}
    (h : textToNumber x = some v) : 0 < v := by
  unfold textToNumber at h
  cases hf : TEXT_TO_NUMBER.find? (fun p => p.1 == x) with
  | none => rw [hf] at h; cases h
  | some p =>
      rw [hf] at h
      have h' : some p.2 = some v := h
      cases h'
      have hp := List.mem_of_find?_eq_some hf
      have := List.all_eq_true.mp TEXT_TO_NUMBER_vals_pos p hp
      simpa using this

theorem jsParseInt_digits {s : List Char} (hne : s ≠ [])
    (hall : s.all isDigitC) :
    jsParseInt (String.mk s) = some ((digitsVal s : ℚ)) := by
  cases s with
  | nil => exact absurd rfl hne
  | cons c t =>
      have hall' := hall
      simp only [List.all_cons, Bool.and_eq_true] at hall'
      have hcd := hall'.1
      have hcn := (isDigitC_iff c).mp hcd
      have hcw : isWsC c = false := ws_of_digit_false hcd
      have hsign := signSplit_no_sign
        (c := c) (t := t) (char_ne_of_toNat_ne (by simp; omega))
        (char_ne_of_toNat_ne (by simp; omega))
      have htake : (c :: t).takeWhile isDigitC = c :: t := by
        have := takeWhile_append_all (p := isDigitC) hall []
        simpa using this
      unfold jsParseInt
      simp only [dropWhile_cons_neg hcw t, hsign, htake]
      rw [if_neg (by simp)]
      simp

theorem jsParseInt_none_of_head {s : List Char} {c : Char} {t : List Char}
    (hs : s = c :: t) (hw : isWsC c = false) (hd : isDigitC c = false)
    (h1 : c ≠ '-') (h2 : c ≠ '+') : jsParseInt (String.mk s) = none := by
  subst hs
  unfold jsParseInt
  simp only [dropWhile_cons_neg hw t, signSplit_no_sign h1 h2,
    takeWhile_cons_neg hd t]
  simp

/-! ## Success lemmas for quantity patterns 1 and 2

(For a string free of line terminators, every phrase matched by pattern 4 is
matched by pattern 1, and every phrase matched by pattern 5 is matched by
pattern 2 — the decompositions below are exactly what the inversion lemmas
of patterns 4 and 5 supply.) -/

theorem qpat1_isSome_of {s d w rest : List Char}
    (hs : s = d ++ (w ++ rest)) (hdne : d ≠ []) (hdall : d.all isDigitC)
    (hwne : w ≠ []) (hwall : w.all isWsC) (hrne : rest ≠ [])
    (hrall : rest.all isDotC) : (qpat1 s).isSome := by
  unfold qpat1
  refine plusThen_isSome_of_split hs hdne hdall ?_
  refine plusThen_isSome_of_split rfl hwne hwall ?_
  rw [dotAllEnd_some hrne hrall]
  simp

theorem qpat2_isSome_of {s u w rest : List Char} {word : String}
    (hword : word ∈ numWords12) (he : eqIList word.data u = true)
    (hs : s = u ++ (w ++ rest)) (hwne : w ≠ []) (hwall : w.all isWsC)
    (hrne : rest ≠ []) (hrall : rest.all isDotC) : (qpat2 s).isSome := by
  unfold qpat2
  refine altLitsThen_isSome_of (List.mem_map.mpr ⟨word, hword, rfl⟩) he hs ?_
  refine plusThen_isSome_of_split rfl hwne hwall ?_
  rw [dotAllEnd_some hrne hrall]
  simp

/-! ## Facts about `quantityOf`, `parseItemWith` and `parseItem` -/

theorem parseItemWith_three (text : String) (a b c : List Char) :
    parseItemWith text [some a, some b, some c] =
      some { name := capitalize (jsTrim (String.mk c)),
             quantity := quantityOf b, unit := none,
             originalText := text } := rfl

theorem parseItemWith_four (text : String) (a b u : List Char)
    {r : List Char} (hr : r ≠ []) :
    parseItemWith text [some a, some b, some u, some r] =
      some { name := capitalize (jsTrim (String.mk r)),
             quantity := quantityOf b, unit := some (String.mk u),
             originalText := text } := by
  have hstep : parseItemWith text [some a, some b, some u, some r] =
      if r = [] then
        some { name := capitalize (jsTrim (String.mk u)),
               quantity := quantityOf b, unit := none, originalText := text }
      else
        some { name := capitalize (jsTrim (String.mk r)),
               quantity := quantityOf b, unit := some (String.mk u),
               originalText := text } := rfl
  rw [hstep, if_neg hr]

theorem jsParseInt_no_sign_eq {c : Char} {t : List Char}
    (hw : isWsC c = false) (h1 : c ≠ '-') (h2 : c ≠ '+') :
    jsParseInt (String.mk (c :: t)) =
      (if (c :: t).takeWhile isDigitC = [] then none
       else some ((digitsVal ((c :: t).takeWhile isDigitC) : ℚ))) := by
  unfold jsParseInt
  simp only [dropWhile_cons_neg hw t, signSplit_no_sign h1 h2]
  simp

theorem jsParseInt_nonneg_of_head {c : Char} {t : List Char} {x : ℚ}
    (hw : isWsC c = false) (h1 : c ≠ '-') (h2 : c ≠ '+')
    (hx : jsParseInt (String.mk (c :: t)) = some x) : 0 ≤ x := by
  rw [jsParseInt_no_sign_eq hw h1 h2] at hx
  by_cases hds : (c :: t).takeWhile isDigitC = []
  · rw [if_pos hds] at hx
    cases hx
  · rw [if_neg hds] at hx
    have h' : some ((digitsVal ((c :: t).takeWhile isDigitC) : ℚ)) = some x :=
      hx
    cases h'
    exact Nat.cast_nonneg _

theorem quantityOf_nonneg_of_head {qt : List Char} {c : Char} {t : List Char}
    {q : ℚ} (hs : qt = c :: t) (hw : isWsC c = false) (h1 : c ≠ '-')
    (h2 : c ≠ '+') (hq : quantityOf qt = some q) : 0 ≤ q := by
  subst hs
  unfold quantityOf at hq
  cases htn : textToNumber (jsLower (String.mk (c :: t))) with
  | some v =>
      rw [htn] at hq
      have hq' : (if v = 0 then jsParseInt (String.mk (c :: t)) else some v)
          = some q := hq
      by_cases hv : v = 0
      · rw [if_pos hv] at hq'
        exact jsParseInt_nonneg_of_head hw h1 h2 hq'
      · rw [if_neg hv] at hq'
        have h' : some v = some q := hq'
        cases h'
        exact le_of_lt (textToNumber_pos htn)
  | none =>
      rw [htn] at hq
      have hq' : jsParseInt (String.mk (c :: t)) = some q := hq
      exact jsParseInt_nonneg_of_head hw h1 h2 hq'

theorem digit_head_facts {d : List Char} (hne : d ≠ [])
    (hall : d.all isDigitC) :
    ∃ c t, d = c :: t ∧ isWsC c = false ∧ c ≠ '-' ∧ c ≠ '+' := by
  cases d with
  | nil => exact absurd rfl hne
  | cons c t =>
      simp only [List.all_cons, Bool.and_eq_true] at hall
      have hn := (isDigitC_iff c).mp hall.1
      exact ⟨c, t, rfl, ws_of_digit_false hall.1,
        char_ne_of_toNat_ne (by simp; omega),
        char_ne_of_toNat_ne (by simp; omega)⟩

theorem quantityOf_digits {d : List Char} (hne : d ≠ [])
    (hall : d.all isDigitC) : quantityOf d = some ((digitsVal d : ℚ)) := by
  unfold quantityOf
  have hlow : jsLower (String.mk d) = String.mk d := by
    unfold jsLower
    congr 1
    show d.map lowerC = d
    calc d.map lowerC = d.map id := by
          apply List.map_congr_left
          intro c hc
          exact lowerC_fix_of_digit (List.all_eq_true.mp hall c hc)
      _ = d := List.map_id d
  rw [hlow, textToNumber_digits_none hne hall]
  exact jsParseInt_digits hne hall

theorem QUANTITY_PATTERNS_cases
    {m : List Char → Option (List (Option (List Char)))}
    (hm : m ∈ QUANTITY_PATTERNS) :
    m = qpat1 ∨ m = qpat2 ∨ m = qpat3 ∨ m = qpat4 ∨ m = qpat5 := by
  simp only [QUANTITY_PATTERNS, List.mem_cons, List.not_mem_nil,
    or_false] at hm
  exact hm

theorem parseItem_eq_with {s : String} {gs : List (Option (List Char))}
    (hfs : QUANTITY_PATTERNS.findSome? (fun m => m (jsTrim s).data)
      = some gs) : parseItem s = parseItemWith s gs := by
  unfold parseItem
  rw [hfs]

theorem parseItem_eq_plain {s : String}
    (hfs : QUANTITY_PATTERNS.findSome? (fun m => m (jsTrim s).data)
      = none) :
    parseItem s = some { name := capitalize (jsTrim s),
                         quantity := none,
                         unit := none,
                         originalText := s } := by
  unfold parseItem
  rw [hfs]

theorem parseItem_isSome (s : String) : (parseItem s).isSome := by
  cases hfs : QUANTITY_PATTERNS.findSome? (fun m => m (jsTrim s).data) with
  | none => rw [parseItem_eq_plain hfs]; simp
  | some gs =>
      rw [parseItem_eq_with hfs]
      obtain ⟨m, hm, hmg⟩ := findSome?_inv hfs
      rcases QUANTITY_PATTERNS_cases hm with rfl | rfl | rfl | rfl | rfl
      · obtain ⟨d, w, r, _, _, _, _, _, _, _, hgs⟩ := qpat1_inv hmg
        rw [hgs, parseItemWith_three]
        simp
      · obtain ⟨u, w, r, _, _, _, _, _, _, hgs⟩ := qpat2_inv hmg
        rw [hgs, parseItemWith_three]
        simp
      · obtain ⟨u, w, r, _, _, _, _, _, _, hgs⟩ := qpat3_inv hmg
        rw [hgs, parseItemWith_three]
        simp
      · obtain ⟨d, w1, u, w2, mid, r, _, _, _, _, _, _, _, _, hrne, _, hgs⟩ :=
          qpat4_inv hmg
        rw [hgs, parseItemWith_four _ _ _ _ hrne]
        simp
      · obtain ⟨n, w1, u, w2, mid, r, _, _, _, _, _, _, _, hrne, _, hgs⟩ :=
          qpat5_inv hmg
        rw [hgs, parseItemWith_four _ _ _ _ hrne]
        simp

theorem parseItem_originalText {s : String} {i : ParsedItem}
    (h : parseItem s = some i) : i.originalText = s := by
  cases hfs : QUANTITY_PATTERNS.findSome? (fun m => m (jsTrim s).data) with
  | none =>
      rw [parseItem_eq_plain hfs] at h
      cases h
      rfl
  | some gs =>
      rw [parseItem_eq_with hfs] at h
      obtain ⟨m, hm, hmg⟩ := findSome?_inv hfs
      rcases QUANTITY_PATTERNS_cases hm with rfl | rfl | rfl | rfl | rfl
      · obtain ⟨d, w, r, _, _, _, _, _, _, _, hgs⟩ := qpat1_inv hmg
        rw [hgs, parseItemWith_three] at h
        cases h
        rfl
      · obtain ⟨u, w, r, _, _, _, _, _, _, hgs⟩ := qpat2_inv hmg
        rw [hgs, parseItemWith_three] at h
        cases h
        rfl
      · obtain ⟨u, w, r, _, _, _, _, _, _, hgs⟩ := qpat3_inv hmg
        rw [hgs, parseItemWith_three] at h
        cases h
        rfl
      · obtain ⟨d, w1, u, w2, mid, r, _, _, _, _, _, _, _, _, hrne, _, hgs⟩ :=
          qpat4_inv hmg
        rw [hgs, parseItemWith_four _ _ _ _ hrne] at h
        cases h
        rfl
      · obtain ⟨n, w1, u, w2, mid, r, _, _, _, _, _, _, _, hrne, _, hgs⟩ :=
          qpat5_inv hmg
        rw [hgs, parseItemWith_four _ _ _ _ hrne] at h
        cases h
        rfl

theorem quantityOf_nonneg_of_word {qt : List Char} {q : ℚ} {word : String}
    (hok : wordOkB word = true) (he : eqIList word.data qt = true)
    (hq : quantityOf qt = some q) : 0 ≤ q := by
  obtain ⟨c, t, hct, hw, _, h1, h2⟩ := capture_head_facts hok he
  exact quantityOf_nonneg_of_head hct hw h1 h2 hq

theorem quantityOf_nonneg_of_digits {qt : List Char} {q : ℚ}
    (hne : qt ≠ []) (hall : qt.all isDigitC)
    (hq : quantityOf qt = some q) : 0 ≤ q := by
  obtain ⟨c, t, hct, hw, h1, h2⟩ := digit_head_facts hne hall
  exact quantityOf_nonneg_of_head hct hw h1 h2 hq

theorem parseItem_quantity_nonneg {s : String} {i : ParsedItem} {q : ℚ}
    (h : parseItem s = some i) (hq : i.quantity = some q) : 0 ≤ q := by
  cases hfs : QUANTITY_PATTERNS.findSome? (fun m => m (jsTrim s).data) with
  | none =>
      rw [parseItem_eq_plain hfs] at h
      cases h
      cases hq
  | some gs =>
      rw [parseItem_eq_with hfs] at h
      obtain ⟨m, hm, hmg⟩ := findSome?_inv hfs
      rcases QUANTITY_PATTERNS_cases hm with rfl | rfl | rfl | rfl | rfl
      · obtain ⟨d, w, r, _, hdne, hdall, _, _, _, _, hgs⟩ := qpat1_inv hmg
        rw [hgs, parseItemWith_three] at h
        cases h
        exact quantityOf_nonneg_of_digits hdne hdall hq
      · obtain ⟨u, w, r, _, ⟨word, hword, he⟩, _, _, _, _, hgs⟩ :=
          qpat2_inv hmg
        rw [hgs, parseItemWith_three] at h
        cases h
        exact quantityOf_nonneg_of_word
          (List.all_eq_true.mp numWords12_ok word hword) he hq
      · obtain ⟨u, w, r, _, ⟨word, hword, he⟩, _, _, _, _, hgs⟩ :=
          qpat3_inv hmg
        rw [hgs, parseItemWith_three] at h
        cases h
        exact quantityOf_nonneg_of_word
          (List.all_eq_true.mp fracWords_ok word hword) he hq
      · obtain ⟨d, w1, u, w2, mid, r, _, hdne, hdall, _, _, _, _, _, hrne, _,
          hgs⟩ := qpat4_inv hmg
        rw [hgs, parseItemWith_four _ _ _ _ hrne] at h
        cases h
        exact quantityOf_nonneg_of_digits hdne hdall hq
      · obtain ⟨n, w1, u, w2, mid, r, _, ⟨word, hword, he⟩, _, _, _, _, _,
          hrne, _, hgs⟩ := qpat5_inv hmg
        rw [hgs, parseItemWith_four _ _ _ _ hrne] at h
        cases h
        exact quantityOf_nonneg_of_word
          (List.all_eq_true.mp numWords10_ok word hword) he hq

theorem all_append_right {p : Char → Bool} {a b : List Char}
    (h : (a ++ b).all p) : b.all p := by
  rw [List.all_append, Bool.and_eq_true] at h
  exact h.2

/-- On a phrase free of line terminators the unit-capturing patterns can
never be the first match: any phrase matched by pattern 4 is already matched
by pattern 1, any phrase matched by pattern 5 is already matched by
pattern 2, so `unit` is always left unset. -/
theorem parseItem_unit_none {s : String} {i : ParsedItem}
    (hdot : (jsTrim s).data.all isDotC) (h : parseItem s = some i) :
    i.unit = none := by
  cases h1 : qpat1 (jsTrim s).data with
  | some g1 =>
      have hfs : QUANTITY_PATTERNS.findSome? (fun m => m (jsTrim s).data)
          = some g1 := by
        simp only [QUANTITY_PATTERNS, List.findSome?_cons, h1]
      rw [parseItem_eq_with hfs] at h
      obtain ⟨d, w, r, _, _, _, _, _, _, _, hgs⟩ := qpat1_inv h1
      rw [hgs, parseItemWith_three] at h
      cases h
      rfl
  | none =>
  cases h2 : qpat2 (jsTrim s).data with
  | some g2 =>
      have hfs : QUANTITY_PATTERNS.findSome? (fun m => m (jsTrim s).data)
          = some g2 := by
        simp only [QUANTITY_PATTERNS, List.findSome?_cons, h1, h2]
      rw [parseItem_eq_with hfs] at h
      obtain ⟨u, w, r, _, _, _, _, _, _, hgs⟩ := qpat2_inv h2
      rw [hgs, parseItemWith_three] at h
      cases h
      rfl
  | none =>
  cases h3 : qpat3 (jsTrim s).data with
  | some g3 =>
      have hfs : QUANTITY_PATTERNS.findSome? (fun m => m (jsTrim s).data)
          = some g3 := by
        simp only [QUANTITY_PATTERNS, List.findSome?_cons, h1, h2, h3]
      rw [parseItem_eq_with hfs] at h
      obtain ⟨u, w, r, _, _, _, _, _, _, hgs⟩ := qpat3_inv h3
      rw [hgs, parseItemWith_three] at h
      cases h
      rfl
  | none =>
  cases h4 : qpat4 (jsTrim s).data with
  | some g4 =>
      exfalso
      obtain ⟨d, w1, u, w2, mid, r, hseq, hdne, hdall, hw1ne, hw1all,
        ⟨word, hword, he⟩, _, _, _, _, _⟩ := qpat4_inv h4
      obtain ⟨c, t, hct, _, _, _, _⟩ := capture_head_facts
        (List.all_eq_true.mp unitWords_ok word hword) he
      have hrestne : u ++ (w2 ++ (mid ++ r)) ≠ [] := by
        rw [hct]
        simp
      have hrestdot : (u ++ (w2 ++ (mid ++ r))).all isDotC := by
        rw [hseq] at hdot
        exact all_append_right (all_append_right hdot)
      have := qpat1_isSome_of hseq hdne hdall hw1ne hw1all hrestne hrestdot
      rw [h1] at this
      simp at this
  | none =>
  cases h5 : qpat5 (jsTrim s).data with
  | some g5 =>
      exfalso
      obtain ⟨n, w1, u, w2, mid, r, hseq, ⟨word, hword, he⟩, hw1ne, hw1all,
        ⟨word2, hword2, he2⟩, _, _, _, _, _⟩ := qpat5_inv h5
      obtain ⟨c, t, hct, _, _, _, _⟩ := capture_head_facts
        (List.all_eq_true.mp unitWords_ok word2 hword2) he2
      have hrestne : u ++ (w2 ++ (mid ++ r)) ≠ [] := by
        rw [hct]
        simp
      have hrestdot : (u ++ (w2 ++ (mid ++ r))).all isDotC := by
        rw [hseq] at hdot
        exact all_append_right (all_append_right hdot)
      have := qpat2_isSome_of (numWords10_sub word hword) he hseq
        hw1ne hw1all hrestne hrestdot
      rw [h2] at this
      simp at this
  | none =>
      have hfs : QUANTITY_PATTERNS.findSome? (fun m => m (jsTrim s).data)
          = none := by
        simp only [QUANTITY_PATTERNS, List.findSome?_cons, h1, h2, h3, h4, h5]
        rfl
      rw [parseItem_eq_plain hfs] at h
      cases h
      rfl

theorem last_mem_suffix {l' front r : List Char} {c : Char}
    (h : l' ++ [c] = front ++ r) (hr : r ≠ []) : c ∈ r := by
  have h2 := congrArg List.reverse h
  simp only [List.reverse_append, List.reverse_cons, List.reverse_nil,
    List.nil_append] at h2
  cases hrr : r.reverse with
  | nil =>
      exfalso
      apply hr
      have := congrArg List.reverse hrr
      simpa using this
  | cons c' rr =>
      rw [hrr] at h2
      simp only [List.cons_append] at h2
      have hcc : c = c' := by
        injection h2 with h3 _
      subst hcc
      have hmem : c ∈ r.reverse := by
        rw [hrr]
        exact List.mem_cons_self c rr
      exact List.mem_reverse.mp hmem

theorem string_mk_nil : String.mk ([] : List Char) = "" := rfl

theorem jsTrim_ne_of_data {s : String} (hne : jsTrim s ≠ "") :
    trimL s.data ≠ [] := by
  intro hx
  apply hne
  unfold jsTrim
  rw [hx]

/-- Every item name produced from a phrase that is non-empty after trimming
is itself non-empty after trimming: the name group of every pattern is a
suffix of the trimmed phrase, and trimming ends at a non-whitespace
character which capitalization preserves. -/
theorem parseItem_name_ne {s : String} {i : ParsedItem}
    (hne : jsTrim s ≠ "") (h : parseItem s = some i) : jsTrim i.name ≠ "" := by
  have htr : trimL s.data ≠ [] := jsTrim_ne_of_data hne
  obtain ⟨l', c, hlast, hcw⟩ := trimL_last_not_ws htr
  have hname : ∀ r : List Char, c ∈ r →
      jsTrim (capitalize (jsTrim (String.mk r))) ≠ "" := by
    intro r hcr
    have h1 : trimL r ≠ [] := trimL_ne_nil_of_mem hcr hcw
    obtain ⟨l2, c2, hl2, hc2⟩ := trimL_last_not_ws h1
    have hc2mem : c2 ∈ trimL r := by
      rw [hl2]
      exact List.mem_append_right l2 (List.mem_cons_self c2 [])
    exact jsTrim_capitalize_ne ⟨c2, hc2mem, hc2⟩
  cases hfs : QUANTITY_PATTERNS.findSome? (fun m => m (jsTrim s).data) with
  | none =>
      rw [parseItem_eq_plain hfs] at h
      cases h
      show jsTrim (capitalize (jsTrim s)) ≠ ""
      have hcmem : c ∈ trimL s.data := by
        rw [hlast]
        exact List.mem_append_right l' (List.mem_cons_self c [])
      exact jsTrim_capitalize_ne ⟨c, hcmem, hcw⟩
  | some gs =>
      rw [parseItem_eq_with hfs] at h
      obtain ⟨m, hm, hmg⟩ := findSome?_inv hfs
      rcases QUANTITY_PATTERNS_cases hm with rfl | rfl | rfl | rfl | rfl
      · obtain ⟨d, w, r, hseq, _, _, _, _, hrne, _, hgs⟩ := qpat1_inv hmg
        rw [hgs, parseItemWith_three] at h
        cases h
        have heq2 : l' ++ [c] = (d ++ w) ++ r := by
          rw [← hlast]
          simp only [List.append_assoc]
          exact hseq
        exact hname r (last_mem_suffix heq2 hrne)
      · obtain ⟨u, w, r, hseq, _, _, _, hrne, _, hgs⟩ := qpat2_inv hmg
        rw [hgs, parseItemWith_three] at h
        cases h
        have heq2 : l' ++ [c] = (u ++ w) ++ r := by
          rw [← hlast]
          simp only [List.append_assoc]
          exact hseq
        exact hname r (last_mem_suffix heq2 hrne)
      · obtain ⟨u, w, r, hseq, _, _, _, hrne, _, hgs⟩ := qpat3_inv hmg
        rw [hgs, parseItemWith_three] at h
        cases h
        have heq2 : l' ++ [c] = (u ++ w) ++ r := by
          rw [← hlast]
          simp only [List.append_assoc]
          exact hseq
        exact hname r (last_mem_suffix heq2 hrne)
      · obtain ⟨d, w1, u, w2, mid, r, hseq, _, _, _, _, _, _, _, hrne, _,
          hgs⟩ := qpat4_inv hmg
        rw [hgs, parseItemWith_four _ _ _ _ hrne] at h
        cases h
        have heq2 : l' ++ [c] = ((((d ++ w1) ++ u) ++ w2) ++ mid) ++ r := by
          rw [← hlast]
          simp only [List.append_assoc]
          exact hseq
        exact hname r (last_mem_suffix heq2 hrne)
      · obtain ⟨n, w1, u, w2, mid, r, hseq, _, _, _, _, _, _, hrne, _,
          hgs⟩ := qpat5_inv hmg
        rw [hgs, parseItemWith_four _ _ _ _ hrne] at h
        cases h
        have heq2 : l' ++ [c] = ((((n ++ w1) ++ u) ++ w2) ++ mid) ++ r := by
          rw [← hlast]
          simp only [List.append_assoc]
          exact hseq
        exact hname r (last_mem_suffix heq2 hrne)

/-! ## Pipeline facts (`splitItems`, `extractTargetList`, `removeActionVerb`) -/

theorem splitItems_ne_nil (text : String) : splitItems text ≠ [] := by
  unfold splitItems
  by_cases hp : (((splitOnCharL ',' (replaceAnds text.data)).map
      (fun p => jsTrim (String.mk p))).filter (fun p => p ≠ "")).length > 0
  · rw [if_pos hp]
    intro hx
    rw [hx] at hp
    simp at hp
  · rw [if_neg hp]
    simp

theorem matchAndAt_suffix {s r : List Char} (h : matchAndAt s = some r) :
    ∃ pre, s = pre ++ r := by
  unfold matchAndAt at h
  by_cases h1 : s.takeWhile isWsC = []
  · simp [h1] at h
  · simp only [h1, if_false] at h
    by_cases h2 : beginsWithI "and".data (s.dropWhile isWsC)
    · simp only [h2, if_true] at h
      by_cases h3 : ((s.dropWhile isWsC).drop 3).takeWhile isWsC = []
      · simp [h3] at h
      · simp only [h3, if_false, Option.some.injEq] at h
        subst h
        refine ⟨s.takeWhile isWsC ++ ((s.dropWhile isWsC).take 3 ++
          ((s.dropWhile isWsC).drop 3).takeWhile isWsC), ?_⟩
        conv_lhs => rw [← List.takeWhile_append_dropWhile (p := isWsC) (l := s)]
        rw [List.append_assoc]
        congr 1
        conv_lhs => rw [← List.take_append_drop 3 (s.dropWhile isWsC)]
        rw [List.append_assoc]
        congr 1
        rw [List.takeWhile_append_dropWhile]
    · simp [h2] at h

theorem replaceAndsFuel_sub :
    ∀ (fuel : ℕ) (s : List Char) (c : Char),
    c ∈ replaceAndsFuel fuel s → c ∈ s ∨ c = ',' ∨ c = ' ' := by
  intro fuel
  induction fuel with
  | zero => intro s c hc; simp [replaceAndsFuel] at hc
  | succ fuel ih =>
      intro s c hc
      cases s with
      | nil => simp [replaceAndsFuel] at hc
      | cons x s' =>
          unfold replaceAndsFuel at hc
          cases hm : matchAndAt (x :: s') with
          | some rest =>
              rw [hm] at hc
              rcases List.mem_cons.mp hc with rfl | hc2
              · exact Or.inr (Or.inl rfl)
              · rcases List.mem_cons.mp hc2 with rfl | hc3
                · exact Or.inr (Or.inr rfl)
                · rcases ih rest c hc3 with hcm | hrest
                  · obtain ⟨pre, hpre⟩ := matchAndAt_suffix hm
                    exact Or.inl (hpre ▸ List.mem_append_right pre hcm)
                  · exact Or.inr hrest
          | none =>
              rw [hm] at hc
              rcases List.mem_cons.mp hc with rfl | hc2
              · exact Or.inl (List.mem_cons_self c s')
              · rcases ih s' c hc2 with hcm | hrest
                · exact Or.inl (List.mem_cons_of_mem x hcm)
                · exact Or.inr hrest

theorem splitAux_piece_sub (sep : Char) :
    ∀ (l acc piece : List Char), piece ∈ splitAux sep l acc →
    ∀ c ∈ piece, c ∈ l ∨ c ∈ acc := by
  intro l
  induction l with
  | nil =>
      intro acc piece hp c hc
      simp only [splitAux, List.mem_singleton] at hp
      subst hp
      exact Or.inr (List.mem_reverse.mp hc)
  | cons x xs ih =>
      intro acc piece hp c hc
      unfold splitAux at hp
      by_cases hx : x == sep
      · rw [if_pos hx] at hp
        rcases List.mem_cons.mp hp with rfl | hp2
        · exact Or.inr (List.mem_reverse.mp hc)
        · rcases ih [] piece hp2 c hc with hin | hin
          · exact Or.inl (List.mem_cons_of_mem x hin)
          · simp at hin
      · rw [if_neg hx] at hp
        rcases ih (x :: acc) piece hp c hc with hin | hin
        · exact Or.inl (List.mem_cons_of_mem x hin)
        · rcases List.mem_cons.mp hin with rfl | hin2
          · exact Or.inl (List.mem_cons_self c xs)
          · exact Or.inr hin2

theorem splitItems_mem_sub {text : String} {x : String}
    (hx : x ∈ splitItems text) (c : Char) (hc : c ∈ x.data) :
    c ∈ text.data ∨ c = ',' ∨ c = ' ' := by
  unfold splitItems at hx
  by_cases hp : (((splitOnCharL ',' (replaceAnds text.data)).map
      (fun p => jsTrim (String.mk p))).filter (fun p => p ≠ "")).length > 0
  · rw [if_pos hp] at hx
    have hx2 := List.mem_of_mem_filter hx
    obtain ⟨piece, hpiece, rfl⟩ := List.mem_map.mp hx2
    have hc2 : c ∈ piece := mem_trimL hc
    have hc3 := splitAux_piece_sub ',' (replaceAnds text.data) [] piece
      hpiece c hc2
    rcases hc3 with hin | hin
    · exact replaceAndsFuel_sub _ _ c hin
    · simp at hin
  · rw [if_neg hp] at hx
    rcases List.mem_singleton.mp hx with rfl
    exact Or.inl hc

theorem removeActionVerb_sub {text : String} {a : VAction} {c : Char}
    (hc : c ∈ (removeActionVerb text a).data) : c ∈ text.data := by
  unfold removeActionVerb at hc
  have hc' : c ∈ (match (((ACTION_VERBS.find?
      (fun p : VAction × List String => p.1 == a)).map
      (fun q : VAction × List String => q.2)).getD []).find?
      (fun verb => jsStartsWith text verb) with
    | some verb => jsTrim (String.mk (text.data.drop verb.data.length))
    | none => text).data := hc
  cases hf : (((ACTION_VERBS.find? (fun p => p.1 == a)).map (·.2)).getD
      []).find? (fun verb => jsStartsWith text verb) with
  | none =>
      rw [hf] at hc'
      exact hc'
  | some v =>
      rw [hf] at hc'
      have hc2 := mem_trimL hc'
      have := List.mem_of_mem_drop hc2
      exact this

theorem extractTargetList_text_sub {text : String} {c : Char}
    (hc : c ∈ (extractTargetList text).1.data) : c ∈ text.data := by
  unfold extractTargetList at hc
  cases hf : LIST_PATTERNS.findSome? (fun m => searchPos m [] text.data) with
  | none =>
      rw [hf] at hc
      exact hc
  | some pr =>
      rw [hf] at hc
      obtain ⟨m, hm, hmg⟩ := findSome?_inv hf
      obtain ⟨pre, cap⟩ := pr
      obtain ⟨mid, sfx, hpre, hsplit, _⟩ := searchPos_inv hmg
      rw [List.nil_append] at hpre
      subst hpre
      have hc3 : c ∈ (if (jsLower (jsTrim (String.mk cap)) == "shopping"
          || jsLower (jsTrim (String.mk cap)) == "grocery") = true
        then (jsTrim (String.mk pre), (none : Option String))
        else (jsTrim (String.mk pre),
          some (jsLower (jsTrim (String.mk cap))))).1.data := hc
      have hc2 : c ∈ pre := by
        by_cases hsh : (jsLower (jsTrim (String.mk cap)) == "shopping"
            || jsLower (jsTrim (String.mk cap)) == "grocery") = true
        · rw [if_pos hsh] at hc3
          exact mem_trimL hc3
        · rw [if_neg hsh] at hc3
          exact mem_trimL hc3
      rw [hsplit]
      exact List.mem_append_left sfx hc2

theorem jsLower_dot {t : String} (h : ∀ c ∈ t.data, isDotC c = true) :
    ∀ c ∈ (jsLower t).data, isDotC c = true := by
  intro c hc
  obtain ⟨x, hx, rfl⟩ := List.mem_map.mp hc
  rw [isDotC_lowerC]
  exact h x hx

/-! ## `parseVoiceCommand`-level helpers -/

theorem parseVoiceCommand_eq (t : String) :
    parseVoiceCommand t =
      ((splitItems (removeActionVerb
          (extractTargetList (jsTrim (jsLower t))).1
          (detectAction (jsTrim (jsLower t))))).mapM parseItem).map
        (fun items =>
          { action := detectAction (jsTrim (jsLower t)),
            items := items,
            targetList := (extractTargetList (jsTrim (jsLower t))).2,
            raw := t }) := rfl

theorem parseVoiceCommand_isSome (t : String) :
    ∃ c, parseVoiceCommand t = some c := by
  rw [parseVoiceCommand_eq]
  have hm := mapM_isSome (f := parseItem)
    (l := splitItems (removeActionVerb
      (extractTargetList (jsTrim (jsLower t))).1
      (detectAction (jsTrim (jsLower t)))))
    (fun x _ => parseItem_isSome x)
  obtain ⟨ys, hys⟩ := Option.isSome_iff_exists.mp hm
  rw [hys]
  exact ⟨_, rfl⟩

theorem parseVoiceCommand_inv {t : String} {c : ParsedCommand}
    (h : parseVoiceCommand t = some c) :
    ∃ ys, (splitItems (removeActionVerb
        (extractTargetList (jsTrim (jsLower t))).1
        (detectAction (jsTrim (jsLower t))))).mapM parseItem = some ys ∧
      c = { action := detectAction (jsTrim (jsLower t)),
            items := ys,
            targetList := (extractTargetList (jsTrim (jsLower t))).2,
            raw := t } := by
  rw [parseVoiceCommand_eq] at h
  cases hmm : (splitItems (removeActionVerb
      (extractTargetList (jsTrim (jsLower t))).1
      (detectAction (jsTrim (jsLower t))))).mapM parseItem with
  | none => rw [hmm] at h; cases h
  | some ys =>
      rw [hmm] at h
      have h' : some ({ action := detectAction (jsTrim (jsLower t)),
                        items := ys,
                        targetList :=
                          (extractTargetList (jsTrim (jsLower t))).2,
                        raw := t } : ParsedCommand) = some c := h
      cases h'
      exact ⟨ys, rfl, rfl⟩

theorem parseVoiceCommand_items_inv {t : String} {c : ParsedCommand}
    {i : ParsedItem} (h : parseVoiceCommand t = some c) (hi : i ∈ c.items) :
    ∃ x ∈ splitItems (removeActionVerb
      (extractTargetList (jsTrim (jsLower t))).1
      (detectAction (jsTrim (jsLower t)))), parseItem x = some i := by
  obtain ⟨ys, hys, rfl⟩ := parseVoiceCommand_inv h
  exact mapM_mem_inv hys hi

/-! ## Claim C4: the action-detection algorithm -/

/-- Stated from the claim's words: the first category, scanning categories
in the order add, complete, uncomplete, remove, containing a verb that is a
prefix of the text or occurs in the text surrounded by spaces; `add` when no
verb matches (verb order within a category cannot affect which category is
first). -/
def claimedAction (text : String) : VAction :=
  if (["add", "adding", "buy", "get", "need", "pick up", "grab"].any
      (fun v => verbMatches text v)) then .add
  else if (["check off", "mark", "complete", "done with", "got",
      "bought"].any (fun v => verbMatches text v)) then .complete
  else if (["uncheck", "unmark", "undo"].any
      (fun v => verbMatches text v)) then .uncomplete
  else if (["remove", "delete", "clear", "take off"].any
      (fun v => verbMatches text v)) then .remove
  else .add

theorem findSome?_verb_any (text : String) (a : VAction) (vs : List String) :
    vs.findSome? (fun verb => if verbMatches text verb then some a else none)
      = if vs.any (fun v => verbMatches text v) then some a else none := by
  induction vs with
  | nil => simp
  | cons v vs ih =>
      rw [List.findSome?_cons]
      by_cases hv : verbMatches text v
      · simp [hv]
      · simp only [List.any_cons]
        rw [if_neg (by simp [hv]), ih]
        simp [hv]

/-- **C4** (confirmed).  For every text, the detected action is the first
category — scanning categories in the order add, complete, uncomplete,
remove — containing a verb that either is a prefix of the text or occurs in
the text surrounded by spaces; if no verb matches, the action is `add`. -/
theorem findSome?_category_step (text : String) (a : VAction)
    (vs : List String) (rest : List (VAction × List String)) :
    List.findSome? (fun p =>
        p.2.findSome? (fun verb =>
          if verbMatches text verb then some p.1 else none)) ((a, vs) :: rest)
      = if vs.any (fun v => verbMatches text v) then some a
        else List.findSome? (fun p =>
          p.2.findSome? (fun verb =>
            if verbMatches text verb then some p.1 else none)) rest := by
  rw [List.findSome?_cons]
  simp only [findSome?_verb_any]
  by_cases h : vs.any (fun v => verbMatches text v)
  · simp [h]
  · simp [h]

theorem C4_detectAction_first_category (text : String) :
    detectAction text = claimedAction text := by
  unfold detectAction claimedAction
  have hAV : ACTION_VERBS =
      (VAction.add,
        ["add", "adding", "buy", "get", "need", "pick up", "grab"]) ::
      (VAction.complete,
        ["check off", "mark", "complete", "done with", "got", "bought"]) ::
      (VAction.uncomplete, ["uncheck", "unmark", "undo"]) ::
      (VAction.remove, ["remove", "delete", "clear", "take off"]) :: [] := rfl
  rw [hAV, findSome?_category_step, findSome?_category_step,
    findSome?_category_step, findSome?_category_step]
  by_cases h1 : (["add", "adding", "buy", "get", "need", "pick up",
      "grab"].any (fun v => verbMatches text v))
  · simp [h1]
  · by_cases h2 : (["check off", "mark", "complete", "done with", "got",
        "bought"].any (fun v => verbMatches text v))
    · simp [h1, h2]
    · by_cases h3 : (["uncheck", "unmark", "undo"].any
          (fun v => verbMatches text v))
      · simp [h1, h2, h3]
      · by_cases h4 : (["remove", "delete", "clear", "take off"].any
            (fun v => verbMatches text v))
        · simp [h1, h2, h3, h4]
        · simp [h1, h2, h3, h4]

/-! ## Claim C5: totality of `parseVoiceCommand` -/

/-- **C5** (confirmed).  For every string input — including the empty string
and strings of only whitespace or punctuation — `parseVoiceCommand` returns
a `ParsedCommand`; the embedding's `none` (a thrown error) is impossible. -/
theorem C5_parseVoiceCommand_total (t : String) :
    ∃ c, parseVoiceCommand t = some c :=
  parseVoiceCommand_isSome t

/-! ## Claim C6: positivity of quantities -/

/-- **C6** counterexample: on `"add 0 apples"` the produced item has the
`quantity` field present with value `0`, which is not positive — the
pattern-1 digits `0` reach `parseInt` unguarded. -/
theorem C6_counterexample :
    parseVoiceCommand "add 0 apples" =
      some { action := .add,
             items := [{ name := "Apples", quantity := some 0, unit := none,
                         originalText := "0 apples" }],
             targetList := none, raw := "add 0 apples" } ∧
    ¬(0 < (0 : ℚ)) :=
  ⟨by decide, by norm_num⟩

/-- **C6** amended: every present quantity is non-negative (it can be zero,
when the quantity text is a zero digit string, but never negative). -/
theorem C6_quantity_nonneg (t : String) (c : ParsedCommand) (i : ParsedItem)
    (q : ℚ) (hc : parseVoiceCommand t = some c) (hi : i ∈ c.items)
    (hq : i.quantity = some q) : 0 ≤ q := by
  obtain ⟨x, _, hx⟩ := parseVoiceCommand_items_inv hc hi
  exact parseItem_quantity_nonneg hx hq

/-- Witness for the amended C6 at `"add 3 apples"`. -/
theorem C6_witness : (0 : ℚ) ≤ 3 :=
  C6_quantity_nonneg "add 3 apples"
    { action := .add,
      items := [{ name := "Apples", quantity := some 3, unit := none,
                  originalText := "3 apples" }],
      targetList := none, raw := "add 3 apples" }
    { name := "Apples", quantity := some 3, unit := none,
      originalText := "3 apples" }
    3 (by decide) (by decide) (by decide)

/-! ## Claim C7: non-emptiness of item names -/

/-- **C7** counterexample: the transcript `"add"` (non-empty after cleaning)
produces a single item whose name is empty after trimming — the action verb
is stripped and the remaining phrase is empty. -/
theorem C7_counterexample :
    parseVoiceCommand "add" =
      some { action := .add,
             items := [{ name := "", quantity := none, unit := none,
                         originalText := "" }],
             targetList := none, raw := "add" } ∧
    jsTrim "" = "" :=
  ⟨by decide, by decide⟩

/-- **C7** amended: an item's name is non-empty after trimming whenever the
item's own phrase (`originalText`) is non-empty after trimming; the name
can only be empty when the whole residual text was empty. -/
theorem C7_name_nonempty (t : String) (c : ParsedCommand) (i : ParsedItem)
    (hc : parseVoiceCommand t = some c) (hi : i ∈ c.items)
    (hne : jsTrim i.originalText ≠ "") : jsTrim i.name ≠ "" := by
  obtain ⟨x, _, hx⟩ := parseVoiceCommand_items_inv hc hi
  have hot := parseItem_originalText hx
  rw [hot] at hne
  exact parseItem_name_ne hne hx

/-- Witness for the amended C7 at `"add milk"`. -/
theorem C7_witness : jsTrim "Milk" ≠ "" :=
  C7_name_nonempty "add milk"
    { action := .add,
      items := [{ name := "Milk", quantity := none, unit := none,
                  originalText := "milk" }],
      targetList := none, raw := "add milk" }
    { name := "Milk", quantity := none, unit := none,
      originalText := "milk" }
    (by decide) (by decide) (by decide)

/-! ## Claim C8: at least one item -/

/-- **C8** (confirmed).  For every transcript whose cleaned (lowercased,
trimmed) form is non-empty, the parsed command's item sequence is
non-empty (`splitItems` falls back to the whole remaining text). -/
theorem C8_items_nonempty (t : String) (h : jsTrim (jsLower t) ≠ "")
    (c : ParsedCommand) (hc : parseVoiceCommand t = some c) :
    c.items ≠ [] := by
  obtain ⟨ys, hys, rfl⟩ := parseVoiceCommand_inv hc
  exact mapM_ne_nil hys (splitItems_ne_nil _)

/-- Witness for C8 at `"add milk"`. -/
theorem C8_witness :
    ({ action := .add,
       items := [{ name := "Milk", quantity := none, unit := none,
                   originalText := "milk" }],
       targetList := none, raw := "add milk" } : ParsedCommand).items ≠ [] :=
  C8_items_nonempty "add milk" (by decide) _ (by decide)

/-! ## Claim C10: the formatted summary is non-empty -/

theorem formatCommandSummary_ne (c : ParsedCommand) :
    formatCommandSummary c ≠ "" := by
  unfold formatCommandSummary
  cases c.action <;>
    (intro heq;
     have hd := congrArg String.data heq;
     simp only [String.data_append, List.append_eq_nil] at hd)
  · exact absurd hd.1.1 (by decide)
  · exact absurd hd.1.1 (by decide)
  · exact absurd hd.1.1 (by decide)
  · exact absurd hd.1.1 (by decide)

/-- **C10** (confirmed).  For every non-empty transcript, formatting the
parsed command yields a non-empty string (it always begins with the action
label). -/
theorem C10_summary_nonempty (t : String) (h : t ≠ "") (c : ParsedCommand)
    (hc : parseVoiceCommand t = some c) : formatCommandSummary c ≠ "" :=
  formatCommandSummary_ne c

/-- Witness for C10 at `"add milk"`. -/
theorem C10_witness :
    formatCommandSummary
      { action := .add,
        items := [{ name := "Milk", quantity := none, unit := none,
                    originalText := "milk" }],
        targetList := none, raw := "add milk" } ≠ "" :=
  C10_summary_nonempty "add milk" (by decide) _ (by decide)

/-! ## Claim C2: is `unit` ever set? -/

/-- **C2** counterexample: on a transcript containing a line terminator the
unit-setting branch *is* reachable: `.` cannot cross the `\n`, so pattern 1
fails on `"2 pounds\nof rice"`, while `\s+` does match the `\n`, so
pattern 4 succeeds and sets `unit`. -/
theorem C2_counterexample :
    parseVoiceCommand "add 2 pounds\nof rice" =
      some { action := .add,
             items := [{ name := "Rice", quantity := some 2,
                         unit := some "pounds",
                         originalText := "2 pounds\nof rice" }],
             targetList := none, raw := "add 2 pounds\nof rice" } ∧
    (some "pounds" : Option String) ≠ none :=
  ⟨by decide, by decide⟩

/-- **C2** amended: for every transcript free of line terminators (LF, CR,
U+2028, U+2029) every parsed item's `unit` is undefined — on such input any
phrase accepted by the digit+unit pattern is already accepted by the
plain-digits pattern and any phrase accepted by the text-number+unit
pattern is already accepted by the text-number pattern. -/
theorem C2_unit_none (t : String) (hdot : t.data.all isDotC)
    (c : ParsedCommand) (i : ParsedItem) (hc : parseVoiceCommand t = some c)
    (hi : i ∈ c.items) : i.unit = none := by
  obtain ⟨x, hxmem, hx⟩ := parseVoiceCommand_items_inv hc hi
  have hnorm : ∀ ch ∈ (jsTrim (jsLower t)).data, isDotC ch = true := by
    intro ch hch
    exact jsLower_dot (fun c2 hc2 => List.all_eq_true.mp hdot c2 hc2) ch
      (mem_trimL hch)
  have hW : ∀ ch ∈ (removeActionVerb
      (extractTargetList (jsTrim (jsLower t))).1
      (detectAction (jsTrim (jsLower t)))).data, isDotC ch = true := by
    intro ch hch
    exact hnorm ch (extractTargetList_text_sub (removeActionVerb_sub hch))
  have hx_dot : (jsTrim x).data.all isDotC := by
    rw [List.all_eq_true]
    intro ch hch
    have hch2 := mem_trimL hch
    rcases splitItems_mem_sub hxmem ch hch2 with hin | rfl | rfl
    · exact hW ch hin
    · decide
    · decide
  exact parseItem_unit_none hx_dot hx

/-- Witness for the amended C2 at `"add 3 apples"`. -/
theorem C2_witness :
    ({ name := "Apples", quantity := some 3, unit := none,
       originalText := "3 apples" } : ParsedItem).unit = none :=
  C2_unit_none "add 3 apples" (by decide)
    { action := .add,
      items := [{ name := "Apples", quantity := some 3, unit := none,
                  originalText := "3 apples" }],
      targetList := none, raw := "add 3 apples" }
    _ (by decide) (by decide)

/-! ## Claim C1: unit-bearing phrases are taken by pattern 1 -/

theorem unitWords_dot : unitWords.all (fun w => w.data.all isDotC) = true := by
  decide

theorem data_ne_of_ne {s : String} (h : s ≠ "") : s.data ≠ [] := by
  intro hx
  apply h
  cases s with
  | mk l =>
      have hl : l = [] := hx
      subst hl
      rfl

/-- **C1** (confirmed).  Every item phrase `<digits> <unit token> of <rest>`
is decided by the plain-digits pattern 1: quantity is the digits value, the
unit is left unset, and the name is the capitalized remainder including the
unit word (e.g. `"3 pounds of rice"` gives name `"Pounds Of Rice"`, not
quantity 3 / unit `"pounds"` / name `"Rice"`). -/
theorem C1_digit_unit_phrase (d u r : String) (hd1 : d ≠ "")
    (hd2 : d.data.all isDigitC) (hu : u ∈ unitWords) (hr1 : r.data ≠ [])
    (hr2 : r.data.all isDotC) (hr3 : isWsC (r.data.getLastD ' ') = false) :
    parseItem (d ++ " " ++ u ++ " of " ++ r) =
      some { name := capitalize (u ++ " of " ++ r),
             quantity := some ((digitsVal d.data : ℚ)),
             unit := none,
             originalText := d ++ " " ++ u ++ " of " ++ r } := by
  have hdata : (d ++ " " ++ u ++ " of " ++ r).data
      = d.data ++ ([' '] ++ (u.data ++ ([' ', 'o', 'f', ' '] ++ r.data))) := by
    simp only [String.data_append, List.append_assoc]
  -- facts about the pieces
  have hdne : d.data ≠ [] := data_ne_of_ne hd1
  obtain ⟨cd, td, hd_eq⟩ : ∃ c t, d.data = c :: t := by
    cases hdd : d.data with
    | nil => exact absurd hdd hdne
    | cons c t => exact ⟨c, t, rfl⟩
  have hcd_digit : isDigitC cd = true := by
    have := hd2
    rw [hd_eq] at this
    simp only [List.all_cons, Bool.and_eq_true] at this
    exact this.1
  have hcd_ws : isWsC cd = false := ws_of_digit_false hcd_digit
  have hok := List.all_eq_true.mp unitWords_ok u hu
  obtain ⟨cu, tu, hu_eq, hcu1, hcu2⟩ := wordOk_head hok
  have hcu_ws : isWsC cu = false := by
    rw [← Bool.not_eq_true, isWsC_iff]
    omega
  have hcu_digit : isDigitC cu = false := by
    rw [← Bool.not_eq_true, isDigitC_iff]
    omega
  have hu_dot : u.data.all isDotC :=
    List.all_eq_true.mpr (fun c hc =>
      List.all_eq_true.mp (List.all_eq_true.mp unitWords_dot u hu) c hc)
  obtain ⟨r0, rlast, hr_eq⟩ : ∃ r0 rl, r.data = r0 ++ [rl] := by
    rcases List.eq_nil_or_concat' r.data with h | ⟨r0, rl, h⟩
    · exact absurd h hr1
    · exact ⟨r0, rl, h⟩
  have hrlast : isWsC rlast = false := by
    rw [hr_eq] at hr3
    simpa using hr3
  -- the tail captured by pattern 1
  have hXne : u.data ++ ([' ', 'o', 'f', ' '] ++ r.data) ≠ [] := by
    rw [hu_eq]
    simp
  have hXdot : (u.data ++ ([' ', 'o', 'f', ' '] ++ r.data)).all isDotC := by
    rw [List.all_append, Bool.and_eq_true]
    refine ⟨hu_dot, ?_⟩
    rw [List.all_append, Bool.and_eq_true]
    exact ⟨by decide, hr2⟩
  -- the phrase is already trimmed
  have htrim : trimL (d ++ " " ++ u ++ " of " ++ r).data
      = (d ++ " " ++ u ++ " of " ++ r).data := by
    apply trimL_eq_self
    · refine ⟨cd, td ++ ([' '] ++ (u.data ++ ([' ', 'o', 'f', ' ']
        ++ r.data))), ?_, hcd_ws⟩
      rw [hdata, hd_eq]
      rfl
    · refine ⟨d.data ++ ([' '] ++ (u.data ++ ([' ', 'o', 'f', ' '] ++ r0))),
        rlast, ?_, hrlast⟩
      rw [hdata, hr_eq]
      simp [List.append_assoc]
  have hclean : jsTrim (d ++ " " ++ u ++ " of " ++ r)
      = d ++ " " ++ u ++ " of " ++ r := by
    unfold jsTrim
    rw [htrim]
  -- pattern 1 matches, capturing the digits and the whole remainder
  have htake1 : (d ++ " " ++ u ++ " of " ++ r).data.takeWhile isDigitC
      = d.data := by
    rw [hdata, takeWhile_append_all hd2]
    rw [List.singleton_append, takeWhile_cons_neg (by decide) _]
    simp
  have hdrop1 : (d ++ " " ++ u ++ " of " ++ r).data.dropWhile isDigitC
      = ' ' :: (u.data ++ ([' ', 'o', 'f', ' '] ++ r.data)) := by
    rw [hdata, dropWhile_append_all hd2]
    rw [List.singleton_append, dropWhile_cons_neg (by decide) _]
  have hq1 : qpat1 (d ++ " " ++ u ++ " of " ++ r).data
      = some [some (d ++ " " ++ u ++ " of " ++ r).data, some d.data,
          some (u.data ++ ([' ', 'o', 'f', ' '] ++ r.data))] := by
    unfold qpat1
    apply plusThen_of_first (by rw [htake1]; exact hdne)
    rw [htake1, hdrop1]
    show plusThen isWsC _ (' ' :: (u.data ++ ([' ', 'o', 'f', ' ']
      ++ r.data))) = _
    have htake2 : (' ' :: (u.data ++ ([' ', 'o', 'f', ' ']
        ++ r.data))).takeWhile isWsC = [' '] := by
      rw [List.takeWhile_cons_of_pos (by decide)]
      rw [hu_eq]
      rw [List.cons_append, takeWhile_cons_neg hcu_ws _]
    have hdrop2 : (' ' :: (u.data ++ ([' ', 'o', 'f', ' ']
        ++ r.data))).dropWhile isWsC
        = u.data ++ ([' ', 'o', 'f', ' '] ++ r.data) := by
      rw [List.dropWhile_cons_of_pos (by decide)]
      rw [hu_eq]
      rw [List.cons_append, dropWhile_cons_neg hcu_ws _]
    apply plusThen_of_first (by rw [htake2]; simp)
    rw [hdrop2, dotAllEnd_some hXne hXdot]
    rfl
  have hfs : QUANTITY_PATTERNS.findSome?
      (fun m => m (jsTrim (d ++ " " ++ u ++ " of " ++ r)).data)
      = some [some (d ++ " " ++ u ++ " of " ++ r).data, some d.data,
          some (u.data ++ ([' ', 'o', 'f', ' '] ++ r.data))] := by
    rw [hclean]
    simp only [QUANTITY_PATTERNS, List.findSome?_cons]
    rw [hq1]
  rw [parseItem_eq_with hfs, parseItemWith_three]
  -- identify the name and the quantity
  have hXtrim : trimL (u.data ++ ([' ', 'o', 'f', ' '] ++ r.data))
      = u.data ++ ([' ', 'o', 'f', ' '] ++ r.data) := by
    apply trimL_eq_self
    · refine ⟨cu, tu ++ ([' ', 'o', 'f', ' '] ++ r.data), ?_, hcu_ws⟩
      rw [hu_eq]
      rfl
    · refine ⟨u.data ++ ([' ', 'o', 'f', ' '] ++ r0), rlast, ?_, hrlast⟩
      rw [hr_eq]
      simp [List.append_assoc]
  have hname : jsTrim (String.mk (u.data ++ ([' ', 'o', 'f', ' ']
      ++ r.data))) = u ++ " of " ++ r := by
    unfold jsTrim
    show String.mk (trimL (u.data ++ ([' ', 'o', 'f', ' '] ++ r.data))) = _
    rw [hXtrim]
    have hXdata : u.data ++ ([' ', 'o', 'f', ' '] ++ r.data)
        = (u ++ " of " ++ r).data := by
      simp only [String.data_append, List.append_assoc]
    rw [hXdata]
  rw [hname, quantityOf_digits hdne hd2]

/-- Witness for C1 at `"3 pounds of rice"`. -/
theorem C1_witness :
    parseItem "3 pounds of rice" =
      some { name := "Pounds Of Rice", quantity := some 3, unit := none,
             originalText := "3 pounds of rice" } :=
  C1_digit_unit_phrase "3" "pounds" "rice" (by decide) (by decide)
    (by decide) (by decide) (by decide) (by decide)

/-! ## Claim C3: targetList from the named-list patterns -/

theorem extractTargetList_snd_found (text : String) (pre cap : List Char)
    (hfs : LIST_PATTERNS.findSome? (fun m => searchPos m [] text.data)
      = some (pre, cap)) :
    (extractTargetList text).2 =
      if (jsLower (jsTrim (String.mk cap)) == "shopping" ||
          jsLower (jsTrim (String.mk cap)) == "grocery") = true then
        none
      else
        some (jsLower (jsTrim (String.mk cap))) := by
  unfold extractTargetList
  rw [hfs]
  show (if (jsLower (jsTrim (String.mk cap)) == "shopping" ||
      jsLower (jsTrim (String.mk cap)) == "grocery") = true then
        (jsTrim (String.mk pre), (none : Option String))
      else (jsTrim (String.mk pre),
        some (jsLower (jsTrim (String.mk cap))))).2 = _
  by_cases hb : (jsLower (jsTrim (String.mk cap)) == "shopping" ||
      jsLower (jsTrim (String.mk cap)) == "grocery") = true
  · rw [if_pos hb, if_pos hb]
  · rw [if_neg hb, if_neg hb]

/-- **C3 counterexample.**  `"add milk on my shopping list"`: its tail
matches pattern 5 (`on (my|the) <name> list`) and none of the earlier
patterns, capturing `"shopping"`; yet `parseVoiceCommand` sets `targetList`
to `none`, not to the captured name trimmed and lowercased. -/
theorem C3_counterexample :
    searchPos lpat1 []
      (jsTrim (jsLower "add milk on my shopping list")).data = none ∧
    searchPos lpat2 []
      (jsTrim (jsLower "add milk on my shopping list")).data = none ∧
    searchPos lpat3 []
      (jsTrim (jsLower "add milk on my shopping list")).data = none ∧
    searchPos lpat4 []
      (jsTrim (jsLower "add milk on my shopping list")).data = none ∧
    searchPos lpat5 []
      (jsTrim (jsLower "add milk on my shopping list")).data
      = some ("add milk".data, "shopping".data) ∧
    parseVoiceCommand "add milk on my shopping list" = some
      { action := .add,
        items := [{ name := "Milk", quantity := none, unit := none,
                    originalText := "milk" }],
        targetList := none,
        raw := "add milk on my shopping list" } ∧
    (none : Option String)
      ≠ some (jsLower (jsTrim (String.mk "shopping".data))) := by
  decide

/-- **C3** (amended).  For every transcript whose normalized form is matched
by pattern 3, 4, or 5 and by neither of the earlier patterns, `targetList`
is the captured name trimmed and lowercased — unless that name is
`"shopping"` or `"grocery"`, in which case `targetList` is left unset (the
generic-marker branch applies to the captures of patterns 3-5 too). -/
theorem C3_targetList (t : String) (pre cap : List Char)
    (h1 : searchPos lpat1 [] (jsTrim (jsLower t)).data = none)
    (h2 : searchPos lpat2 [] (jsTrim (jsLower t)).data = none)
    (h345 : searchPos lpat3 [] (jsTrim (jsLower t)).data = some (pre, cap) ∨
      (searchPos lpat3 [] (jsTrim (jsLower t)).data = none ∧
       searchPos lpat4 [] (jsTrim (jsLower t)).data = some (pre, cap)) ∨
      (searchPos lpat3 [] (jsTrim (jsLower t)).data = none ∧
       searchPos lpat4 [] (jsTrim (jsLower t)).data = none ∧
       searchPos lpat5 [] (jsTrim (jsLower t)).data = some (pre, cap)))
    (c : ParsedCommand) (hc : parseVoiceCommand t = some c) :
    c.targetList =
      if (jsLower (jsTrim (String.mk cap)) == "shopping" ||
          jsLower (jsTrim (String.mk cap)) == "grocery") = true then
        none
      else
        some (jsLower (jsTrim (String.mk cap))) := by
  obtain ⟨ys, hys, rfl⟩ := parseVoiceCommand_inv hc
  show (extractTargetList (jsTrim (jsLower t))).2 = _
  refine extractTargetList_snd_found (jsTrim (jsLower t)) pre cap ?_
  rcases h345 with h3 | ⟨h3, h4⟩ | ⟨h3, h4, h5⟩
  · simp only [LIST_PATTERNS, List.findSome?_cons]
    rw [h1, h2, h3]
  · simp only [LIST_PATTERNS, List.findSome?_cons]
    rw [h1, h2, h3, h4]
  · simp only [LIST_PATTERNS, List.findSome?_cons]
    rw [h1, h2, h3, h4, h5]

/-- Witness for C3 at `"add milk to costco list"` (pattern 4 matches,
capturing `"costco"`; `targetList` becomes `some "costco"`). -/
theorem C3_witness :
    ({ action := VAction.add,
       items := [{ name := "Milk", quantity := none, unit := none,
                   originalText := "milk" }],
       targetList := some "costco",
       raw := "add milk to costco list" } : ParsedCommand).targetList =
      if (jsLower (jsTrim (String.mk "costco".data)) == "shopping" ||
          jsLower (jsTrim (String.mk "costco".data)) == "grocery") = true then
        none
      else
        some (jsLower (jsTrim (String.mk "costco".data))) :=
  C3_targetList "add milk to costco list" "add milk".data "costco".data
    (by decide) (by decide)
    (Or.inr (Or.inl ⟨by decide, by decide⟩))
    { action := .add,
      items := [{ name := "Milk", quantity := none, unit := none,
                  originalText := "milk" }],
      targetList := some "costco",
      raw := "add milk to costco list" }
    (by decide)

/-! ## Claim C9: the generic default-list clauses -/

theorem extractTargetList_fst_found (text : String) (pre cap : List Char)
    (hfs : LIST_PATTERNS.findSome? (fun m => searchPos m [] text.data)
      = some (pre, cap)) :
    (extractTargetList text).1 = jsTrim (String.mk pre) := by
  unfold extractTargetList
  rw [hfs]
  show (if (jsLower (jsTrim (String.mk cap)) == "shopping" ||
      jsLower (jsTrim (String.mk cap)) == "grocery") = true then
        (jsTrim (String.mk pre), (none : Option String))
      else (jsTrim (String.mk pre),
        some (jsLower (jsTrim (String.mk cap))))).1 = _
  by_cases hb : (jsLower (jsTrim (String.mk cap)) == "shopping" ||
      jsLower (jsTrim (String.mk cap)) == "grocery") = true
  · rw [if_pos hb]
  · rw [if_neg hb]

theorem eq_of_eqIList_lower {w : List Char} :
    ∀ {u : List Char}, eqIList w u = true →
    (∀ x ∈ w, lowerC x = x) → (∀ x ∈ u, lowerC x = x) → w = u := by
  induction w with
  | nil =>
      intro u h _ _
      cases u with
      | nil => rfl
      | cons b u => simp [eqIList] at h
  | cons a w ih =>
      intro u h hw hu
      cases u with
      | nil => simp [eqIList] at h
      | cons b u =>
          simp only [eqIList, Bool.and_eq_true] at h
          have h1 : lowerC a = lowerC b := eq_of_beq h.1
          rw [hw a (by simp), hu b (by simp)] at h1
          rw [h1, ih h.2 (fun x hx => hw x (List.mem_cons_of_mem _ hx))
            (fun x hx => hu x (List.mem_cons_of_mem _ hx))]

/-- Every character of the normalized transcript is fixed by lower-casing. -/
theorem jsTrim_jsLower_fix (t : String) {x : Char}
    (hx : x ∈ (jsTrim (jsLower t)).data) : lowerC x = x := by
  have hx0 : x ∈ trimL (jsLower t).data := hx
  have hx1 : x ∈ (jsLower t).data := mem_trimL hx0
  have hx2 : x ∈ t.data.map lowerC := hx1
  obtain ⟨y, _, rfl⟩ := List.mem_map.mp hx2
  exact lowerC_idem y

/-- The capture of pattern 1 lies inside the searched text and is
case-insensitively `shopping` or `grocery`. -/
theorem lpat1_cap_inv {s a : List Char} (h : lpat1 s = some a) :
    (∀ x ∈ a, x ∈ s) ∧
    (eqIList "shopping".data a = true ∨ eqIList "grocery".data a = true) := by
  unfold lpat1 at h
  obtain ⟨w1, r1, hse, _, _, hk1⟩ := plusThen_inv h
  obtain ⟨u2, r2, hr1, _, hk2⟩ := litIThen_inv hk1
  obtain ⟨w3, r3, hr2, _, _, hk3⟩ := plusThen_inv hk2
  obtain ⟨u4, r4, hr3, _, hk4⟩ := litIThen_inv hk3
  obtain ⟨w5, r5, hr4, _, _, hk5⟩ := plusThen_inv hk4
  obtain ⟨wl, hwl, u6, r6, hr5, he6, hk6⟩ := altLitsThen_inv hk5
  obtain ⟨w7, r7, hr6, _, _, hk7⟩ := plusThen_inv hk6
  obtain ⟨u8, r8, hr7, _, hk8⟩ := litIThen_inv hk7
  have hk8' : (if r8 = [] then some u6 else none) = some a := hk8
  have ha : u6 = a := by
    by_cases hr : r8 = []
    · rw [if_pos hr] at hk8'
      exact Option.some.inj hk8'
    · rw [if_neg hr] at hk8'
      cases hk8'
  subst ha
  constructor
  · intro x hx
    rw [hse, hr1, hr2, hr3, hr4, hr5]
    simp only [List.mem_append]
    tauto
  · simp only [List.mem_cons, List.not_mem_nil, or_false] at hwl
    rcases hwl with rfl | rfl
    · exact Or.inl he6
    · exact Or.inr he6

/-- The capture of pattern 2 lies inside the searched text and is
case-insensitively `shopping` or `grocery`. -/
theorem lpat2_cap_inv {s a : List Char} (h : lpat2 s = some a) :
    (∀ x ∈ a, x ∈ s) ∧
    (eqIList "shopping".data a = true ∨ eqIList "grocery".data a = true) := by
  unfold lpat2 at h
  obtain ⟨w1, r1, hse, _, _, hk1⟩ := plusThen_inv h
  obtain ⟨u2, r2, hr1, _, hk2⟩ := litIThen_inv hk1
  obtain ⟨w3, r3, hr2, _, _, hk3⟩ := plusThen_inv hk2
  obtain ⟨u4, r4, hr3, _, hk4⟩ := litIThen_inv hk3
  obtain ⟨w5, r5, hr4, _, _, hk5⟩ := plusThen_inv hk4
  obtain ⟨wl, hwl, u6, r6, hr5, he6, hk6⟩ := altLitsThen_inv hk5
  obtain ⟨w7, r7, hr6, _, _, hk7⟩ := plusThen_inv hk6
  obtain ⟨u8, r8, hr7, _, hk8⟩ := litIThen_inv hk7
  have hk8' : (if r8 = [] then some u6 else none) = some a := hk8
  have ha : u6 = a := by
    by_cases hr : r8 = []
    · rw [if_pos hr] at hk8'
      exact Option.some.inj hk8'
    · rw [if_neg hr] at hk8'
      cases hk8'
  subst ha
  constructor
  · intro x hx
    rw [hse, hr1, hr2, hr3, hr4, hr5]
    simp only [List.mem_append]
    tauto
  · simp only [List.mem_cons, List.not_mem_nil, or_false] at hwl
    rcases hwl with rfl | rfl
    · exact Or.inl he6
    · exact Or.inr he6

theorem lpat1_ws_shopping {w : List Char} (hw1 : w ≠ [])
    (hw2 : w.all isWsC) :
    (lpat1 (w ++ "to my shopping list".data)).isSome := by
  unfold lpat1
  exact plusThen_isSome_of_split rfl hw1 hw2 (by decide)

theorem lpat1_ws_grocery {w : List Char} (hw1 : w ≠ [])
    (hw2 : w.all isWsC) :
    (lpat1 (w ++ "to my grocery list".data)).isSome := by
  unfold lpat1
  exact plusThen_isSome_of_split rfl hw1 hw2 (by decide)

theorem lpat2_ws_shopping {w : List Char} (hw1 : w ≠ [])
    (hw2 : w.all isWsC) :
    (lpat2 (w ++ "to the shopping list".data)).isSome := by
  unfold lpat2
  exact plusThen_isSome_of_split rfl hw1 hw2 (by decide)

theorem lpat2_ws_grocery {w : List Char} (hw1 : w ≠ [])
    (hw2 : w.all isWsC) :
    (lpat2 (w ++ "to the grocery list".data)).isSome := by
  unfold lpat2
  exact plusThen_isSome_of_split rfl hw1 hw2 (by decide)

/-- **C9 counterexample.**  The transcript `"to my shopping list"` ends with
(indeed, is) the clause `to my shopping list`, yet the clause is not
stripped: every list pattern requires leading whitespace (`\s+`) before
`to`, so nothing matches, the whole clause is parsed as an item
(`"To My Shopping List"`), and the text used for item parsing still
contains the clause. -/
theorem C9_counterexample :
    parseVoiceCommand "to my shopping list" = some
      { action := .add,
        items := [{ name := "To My Shopping List", quantity := none,
                    unit := none, originalText := "to my shopping list" }],
        targetList := none,
        raw := "to my shopping list" } ∧
    (extractTargetList (jsTrim (jsLower "to my shopping list"))).1
      = "to my shopping list" := by
  decide

/-- **C9** (amended).  For every transcript whose normalized form ends with
one of the clauses `to my shopping list`, `to my grocery list`,
`to the shopping list`, `to the grocery list` *preceded by at least one
whitespace character*, `parseVoiceCommand` leaves `targetList` unset, and
the text used for item parsing is the trimmed prefix preceding a suffix
matched by list pattern 1 or 2 (the clause is stripped).  A transcript that
is the bare clause, with nothing before it, does not satisfy the whitespace
requirement and the clause is then not stripped. -/
theorem C9_generic_list_clause (t p w clause : String)
    (hcl : clause = "to my shopping list" ∨ clause = "to my grocery list" ∨
      clause = "to the shopping list" ∨ clause = "to the grocery list")
    (hw1 : w.data ≠ []) (hw2 : w.data.all isWsC)
    (hsplit : (jsTrim (jsLower t)).data = p.data ++ (w.data ++ clause.data))
    (c : ParsedCommand) (hc : parseVoiceCommand t = some c) :
    c.targetList = none ∧
    ∃ pre sfx cap, (jsTrim (jsLower t)).data = pre ++ sfx ∧
      (lpat1 sfx = some cap ∨ lpat2 sfx = some cap) ∧
      (extractTargetList (jsTrim (jsLower t))).1 = jsTrim (String.mk pre) := by
  obtain ⟨ys, hys, rfl⟩ := parseVoiceCommand_inv hc
  cases hs1 : searchPos lpat1 [] (jsTrim (jsLower t)).data with
  | some pr =>
      obtain ⟨pre1, a⟩ := pr
      have hfs : LIST_PATTERNS.findSome?
          (fun m => searchPos m [] (jsTrim (jsLower t)).data)
          = some (pre1, a) := by
        simp only [LIST_PATTERNS, List.findSome?_cons]
        rw [hs1]
      obtain ⟨mid, sfx, hpre, hnd, hm⟩ := searchPos_inv hs1
      rw [List.nil_append] at hpre
      subst hpre
      obtain ⟨hsub, halt⟩ := lpat1_cap_inv hm
      have hfix : ∀ x ∈ a, lowerC x = x := by
        intro x hx
        apply jsTrim_jsLower_fix t
        rw [hnd]
        exact List.mem_append_right _ (hsub x hx)
      have ha : a = "shopping".data ∨ a = "grocery".data := by
        rcases halt with h | h
        · exact Or.inl (eq_of_eqIList_lower h (by decide) hfix).symm
        · exact Or.inr (eq_of_eqIList_lower h (by decide) hfix).symm
      have h2 := extractTargetList_snd_found (jsTrim (jsLower t)) pre1 a hfs
      have h1 := extractTargetList_fst_found (jsTrim (jsLower t)) pre1 a hfs
      constructor
      · show (extractTargetList (jsTrim (jsLower t))).2 = none
        rw [h2]
        rcases ha with rfl | rfl
        · rw [if_pos (by decide)]
        · rw [if_pos (by decide)]
      · exact ⟨pre1, sfx, a, hnd, Or.inl hm, h1⟩
  | none =>
      cases hs2 : searchPos lpat2 [] (jsTrim (jsLower t)).data with
      | some pr =>
          obtain ⟨pre2, a⟩ := pr
          have hfs : LIST_PATTERNS.findSome?
              (fun m => searchPos m [] (jsTrim (jsLower t)).data)
              = some (pre2, a) := by
            simp only [LIST_PATTERNS, List.findSome?_cons]
            rw [hs1, hs2]
          obtain ⟨mid, sfx, hpre, hnd, hm⟩ := searchPos_inv hs2
          rw [List.nil_append] at hpre
          subst hpre
          obtain ⟨hsub, halt⟩ := lpat2_cap_inv hm
          have hfix : ∀ x ∈ a, lowerC x = x := by
            intro x hx
            apply jsTrim_jsLower_fix t
            rw [hnd]
            exact List.mem_append_right _ (hsub x hx)
          have ha : a = "shopping".data ∨ a = "grocery".data := by
            rcases halt with h | h
            · exact Or.inl (eq_of_eqIList_lower h (by decide) hfix).symm
            · exact Or.inr (eq_of_eqIList_lower h (by decide) hfix).symm
          have h2 := extractTargetList_snd_found (jsTrim (jsLower t)) pre2 a hfs
          have h1 := extractTargetList_fst_found (jsTrim (jsLower t)) pre2 a hfs
          constructor
          · show (extractTargetList (jsTrim (jsLower t))).2 = none
            rw [h2]
            rcases ha with rfl | rfl
            · rw [if_pos (by decide)]
            · rw [if_pos (by decide)]
          · exact ⟨pre2, sfx, a, hnd, Or.inr hm, h1⟩
      | none =>
          exfalso
          rcases hcl with rfl | rfl | rfl | rfl
          · have hsp := searchPos_isSome_of hsplit
              (lpat1_ws_shopping hw1 hw2) []
            rw [hs1] at hsp
            simp at hsp
          · have hsp := searchPos_isSome_of hsplit
              (lpat1_ws_grocery hw1 hw2) []
            rw [hs1] at hsp
            simp at hsp
          · have hsp := searchPos_isSome_of hsplit
              (lpat2_ws_shopping hw1 hw2) []
            rw [hs2] at hsp
            simp at hsp
          · have hsp := searchPos_isSome_of hsplit
              (lpat2_ws_grocery hw1 hw2) []
            rw [hs2] at hsp
            simp at hsp

/-- Witness for C9 at `"add milk to my shopping list"` (the clause is
preceded by a space; `targetList` stays unset and the clause is stripped). -/
theorem C9_witness :
    ({ action := VAction.add,
       items := [{ name := "Milk", quantity := none, unit := none,
                   originalText := "milk" }],
       targetList := none,
       raw := "add milk to my shopping list" } : ParsedCommand).targetList
      = none ∧
    ∃ pre sfx cap,
      (jsTrim (jsLower "add milk to my shopping list")).data = pre ++ sfx ∧
      (lpat1 sfx = some cap ∨ lpat2 sfx = some cap) ∧
      (extractTargetList (jsTrim (jsLower "add milk to my shopping list"))).1
        = jsTrim (String.mk pre) :=
  C9_generic_list_clause "add milk to my shopping list" "add milk" " "
    "to my shopping list" (Or.inl rfl) (by decide) (by decide) (by decide)
    { action := .add,
      items := [{ name := "Milk", quantity := none, unit := none,
                  originalText := "milk" }],
      targetList := none,
      raw := "add milk to my shopping list" }
    (by decide)
